import Mathlib

/-!
Verification of the insider-platform compute pipeline.

Shallow embedding conventions:
- Python numbers (ints/floats stored in SQLite columns) are modelled as `ℚ`,
  so the arithmetic identities of the pipeline are stated exactly.
- A Python value that may be `None` (or a non-numeric DB value that fails the
  `isinstance` checks in the source) is modelled as `Option _`.
- ISO-8601 date strings are compared lexicographically in the source, which
  coincides with chronological order; where the source converts them to
  `datetime.date` and adds day deltas (clusters) we model a date as an
  integer day number, which preserves both the order and the day arithmetic.
- Timestamps (`utcnow`) are modelled as integer seconds passed in explicitly.
-/

set_option maxRecDepth 10000

/-- Strict code-point order on characters (Python string comparison). -/
def charLtb (a b : Char) : Bool := a.val < b.val

/-- Lexicographic strict order on character lists. -/
def listLexLt : List Char → List Char → Bool
  | [], [] => false
  | [], _ :: _ => true
  | _ :: _, [] => false
  | a :: as, b :: bs =>
    if charLtb a b then true
    else if charLtb b a then false
    else listLexLt as bs

/-- Lexicographic non-strict order on character lists. -/
def listLexLe : List Char → List Char → Bool
  | [], _ => true
  | _ :: _, [] => false
  | a :: as, b :: bs =>
    if charLtb a b then true
    else if charLtb b a then false
    else listLexLe as bs

/-- Python `a < b` on strings: code-point lexicographic order. -/
def strLt (a b : String) : Bool := listLexLt a.data b.data

/-- Python `a <= b` on strings: code-point lexicographic order. -/
def strLe (a b : String) : Bool := listLexLe a.data b.data

/-- Minimum of a list of strings, `none` on the empty list. -/
def listMinStr? (l : List String) : Option String :=
  l.foldl (fun acc s =>
    match acc with
    | none => some s
    | some t => some (if strLe t s then t else s)) none

/-- Maximum of a list of strings, `none` on the empty list. -/
def listMaxStr? (l : List String) : Option String :=
  l.foldl (fun acc s =>
    match acc with
    | none => some s
    | some t => some (if strLe t s then s else t)) none

/-- Minimum of a list, `none` on the empty list (Python `min(xs) if xs else None`). -/
def listMin? {α : Type} [LinearOrder α] (l : List α) : Option α :=
  l.foldl (fun acc s =>
    match acc with
    | none => some s
    | some t => some (min t s)) none

/-- Maximum of a list, `none` on the empty list (Python `max(xs) if xs else None`). -/
def listMax? {α : Type} [LinearOrder α] (l : List α) : Option α :=
  l.foldl (fun acc s =>
    match acc with
    | none => some s
    | some t => some (max t s)) none

/-! ## Job queue (`insider_platform/jobs/queue.py`) -/

/-- One row of the `jobs` table, restricted to the columns touched by
`mark_job_deferred` / `mark_job_error`. -/
structure JobRow where
  status : String
  attempts : Int
  max_attempts : Int
  last_error : Option String
  run_after : Option Int
  updated_at : Int
deriving DecidableEq

/-- Embedding of `mark_job_deferred(conn, job_id, reason, retry_after_seconds)`:
sets the row back to `pending`, records the (5000-char truncated) reason as
`last_error`, stamps `updated_at`, and pushes `run_after` to
`now + retry_after_seconds`.  `attempts` is not written. -/
def markJobDeferred (job : JobRow) (reason : String) (now : Int)
    (retry_after_seconds : Int) : JobRow :=
  { job with
    status := "pending"
    last_error := some (reason.take 5000)
    updated_at := now
    run_after := some (now + retry_after_seconds) }

/-- Embedding of `mark_job_error(conn, job_id, err, retry_after_seconds)`:
increments `attempts`; when the incremented count reaches `max_attempts` the
job becomes terminal `error` (leaving `run_after` untouched), otherwise it is
re-queued `pending` with `run_after = now + retry_after_seconds`.  The error
text is recorded truncated to 5000 characters in both branches. -/
def markJobError (job : JobRow) (err : String) (now : Int)
    (retry_after_seconds : Int) : JobRow :=
  let attempts := job.attempts + 1
  if job.max_attempts ≤ attempts then
    { job with
      status := "error"
      attempts := attempts
      last_error := some (err.take 5000)
      updated_at := now }
  else
    { job with
      status := "pending"
      attempts := attempts
      last_error := some (err.take 5000)
      updated_at := now
      run_after := some (now + retry_after_seconds) }

/-! ## Trend (`insider_platform/compute/trend.py`) -/

/-- Result of `compute_trend_for_event`: either a missing-reason write
(`_set_trend_missing`) or the computed trend columns. -/
inductive TrendResult where
  | missing (reason : String)
  | computed (anchor_date : String) (close : ℚ) (ret20 ret60 distHigh distLow : ℚ)
      (above50 above200 : Bool)
deriving DecidableEq

/-- Missing-reason of a trend result (`none` when the trend was computed). -/
def TrendResult.reason? : TrendResult → Option String
  | .missing r => some r
  | .computed _ _ _ _ _ _ _ _ => none

/-- Mean of a rational list (`statistics.mean`); 0 on the empty list
(unreached: the source only calls it on slices of guaranteed length). -/
def listMean (l : List ℚ) : ℚ := l.sum / (l.length : ℚ)

/-- Anchor index: first index whose date is on/after the trade date
(`for idx, d in enumerate(dates): if d >= trade_date: i = idx; break`). -/
def trendAnchorIdx (dates : List String) (trade_date : String) : Option Nat :=
  dates.findIdx? (fun d => strLe trade_date d)

/-- Embedding of the computational core of `compute_trend_for_event`, from the
point where `trade_date` has been resolved: guards for a missing/blank trade
date, empty price series, missing anchor, then the lookback checks in source
order (`i < 199`, `i < 251`, `i < 60`, `i < 20`), then the trend columns.
The series is the `(date, adj_close)` list of `_load_prices`. -/
def computeTrend (trade_date : Option String) (series : List (String × ℚ)) :
    TrendResult :=
  match trade_date with
  | none => .missing "missing_event_trade_date"
  | some td =>
    if td = "" then .missing "missing_event_trade_date"
    else if series.isEmpty then .missing "missing_price_series"
    else
      let dates := series.map (fun p => p.1)
      let closes := series.map (fun p => p.2)
      match trendAnchorIdx dates td with
      | none => .missing "anchor_not_found"
      | some i =>
        if i < 199 then .missing "insufficient_history_for_sma200"
        else if i < 251 then .missing "insufficient_history_for_52w"
        else if i < 60 then .missing "insufficient_history_for_60d"
        else if i < 20 then .missing "insufficient_history_for_20d"
        else
          let close_anchor := closes.getD i 0
          let close_20 := closes.getD (i - 20) 0
          let close_60 := closes.getD (i - 60) 0
          let ret_20 := close_anchor / close_20 - 1
          let ret_60 := close_anchor / close_60 - 1
          let window_52w := (closes.drop (i - 251)).take 252
          let high_52 := (listMax? window_52w).getD 0
          let low_52 := (listMin? window_52w).getD 0
          let dist_high := close_anchor / high_52 - 1
          let dist_low := close_anchor / low_52 - 1
          let sma50 := listMean ((closes.drop (i - 49)).take 50)
          let sma200 := listMean ((closes.drop (i - 199)).take 200)
          .computed (dates.getD i "") close_anchor ret_20 ret_60 dist_high dist_low
            (decide (sma50 < close_anchor)) (decide (sma200 < close_anchor))

/-! ## Theorems: C5 (queue retry semantics) and C10 (trend history guards) -/

/-- C5: `mark_deferred` returns the job to pending with a future `run_after`
(for a positive retry delay) and leaves `attempts` unchanged; `mark_error`
records `last_error`, increments `attempts` by exactly one, re-queues the job
pending with `run_after = now + retry_after_seconds` when the incremented
count is still below `max_attempts`, and transitions to terminal `error`
when it reaches `max_attempts`; neither operation decrements `attempts`. -/
theorem mark_deferred_and_mark_error_spec (job : JobRow) (reason err : String)
    (now retry : Int) (hretry : 0 < retry) :
    (markJobDeferred job reason now retry).status = "pending" ∧
    (∀ ra, (markJobDeferred job reason now retry).run_after = some ra → now < ra) ∧
    (markJobDeferred job reason now retry).attempts = job.attempts ∧
    (markJobError job err now retry).last_error = some (err.take 5000) ∧
    (markJobError job err now retry).attempts = job.attempts + 1 ∧
    (job.attempts + 1 < job.max_attempts →
      (markJobError job err now retry).status = "pending" ∧
      (markJobError job err now retry).run_after = some (now + retry)) ∧
    (job.max_attempts ≤ job.attempts + 1 →
      (markJobError job err now retry).status = "error") ∧
    job.attempts ≤ (markJobError job err now retry).attempts ∧
    job.attempts ≤ (markJobDeferred job reason now retry).attempts := by
  refine ⟨rfl, ?_, rfl, ?_, ?_, ?_, ?_, ?_, le_refl _⟩
  · intro ra hra
    have h2 : now + retry = ra := Option.some.inj hra
    omega
  · unfold markJobError
    by_cases h : job.max_attempts ≤ job.attempts + 1 <;> simp [h]
  · unfold markJobError
    by_cases h : job.max_attempts ≤ job.attempts + 1 <;> simp [h]
  · intro hlt
    have h : ¬ job.max_attempts ≤ job.attempts + 1 := by omega
    unfold markJobError
    simp [h]
  · intro hle
    unfold markJobError
    simp [hle]
  · unfold markJobError
    by_cases h : job.max_attempts ≤ job.attempts + 1 <;> simp [h]

/-- Witness for C5 at a concrete job (`running`, 0 of 3 attempts). -/
theorem mark_deferred_and_mark_error_spec_witness :
    (markJobDeferred ⟨"running", 0, 3, none, none, 0⟩ "r" 100 30).status = "pending" ∧
    (∀ ra, (markJobDeferred ⟨"running", 0, 3, none, none, 0⟩ "r" 100 30).run_after = some ra →
      (100 : Int) < ra) ∧
    (markJobDeferred ⟨"running", 0, 3, none, none, 0⟩ "r" 100 30).attempts = 0 ∧
    (markJobError ⟨"running", 0, 3, none, none, 0⟩ "e" 100 30).last_error =
      some ("e".take 5000) ∧
    (markJobError ⟨"running", 0, 3, none, none, 0⟩ "e" 100 30).attempts = 0 + 1 ∧
    ((0 : Int) + 1 < 3 →
      (markJobError ⟨"running", 0, 3, none, none, 0⟩ "e" 100 30).status = "pending" ∧
      (markJobError ⟨"running", 0, 3, none, none, 0⟩ "e" 100 30).run_after = some (100 + 30)) ∧
    ((3 : Int) ≤ 0 + 1 →
      (markJobError ⟨"running", 0, 3, none, none, 0⟩ "e" 100 30).status = "error") ∧
    (0 : Int) ≤ (markJobError ⟨"running", 0, 3, none, none, 0⟩ "e" 100 30).attempts ∧
    (0 : Int) ≤ (markJobDeferred ⟨"running", 0, 3, none, none, 0⟩ "r" 100 30).attempts :=
  mark_deferred_and_mark_error_spec ⟨"running", 0, 3, none, none, 0⟩ "r" "e" 100 30
    (by norm_num)

/-- C10: the trend computation can never record the reasons
`insufficient_history_for_60d` or `insufficient_history_for_20d`: the earlier
`i < 199` / `i < 251` guards subsume them, so every computed trend has an
anchor index of at least 251 (251 prior trading days of history). -/
theorem trend_no_20d_60d_reasons (trade_date : Option String)
    (series : List (String × ℚ)) :
    (computeTrend trade_date series).reason? ≠ some "insufficient_history_for_60d" ∧
    (computeTrend trade_date series).reason? ≠ some "insufficient_history_for_20d" ∧
    (∀ i, (computeTrend trade_date series).reason? = none →
      trendAnchorIdx (series.map (fun p => p.1)) (trade_date.getD "") = some i →
      251 ≤ i) := by
  unfold computeTrend
  cases trade_date with
  | none => simp [TrendResult.reason?]
  | some td =>
    by_cases h0 : td = ""
    · simp [h0, TrendResult.reason?]
    · simp only [h0, if_false]
      by_cases h1 : series.isEmpty
      · simp [h1, TrendResult.reason?]
      · simp only [h1, if_false]
        cases ha : trendAnchorIdx (series.map (fun p => p.1)) td with
        | none => simp [TrendResult.reason?]
        | some i =>
          simp only [Option.getD_some]
          by_cases h199 : i < 199
          · simp [h199, TrendResult.reason?]
          · by_cases h251 : i < 251
            · simp [h199, h251, TrendResult.reason?]
            · have h60 : ¬ i < 60 := by omega
              have h20 : ¬ i < 20 := by omega
              simp only [h199, h251, h60, h20, if_false]
              refine ⟨by simp [TrendResult.reason?], by simp [TrendResult.reason?], ?_⟩
              intro j _ hj
              rw [ha] at hj
              have : i = j := by simpa using hj
              omega

/-- Synthetic monotone date string for witnesses: three-digit zero-padded. -/
def natDateStr (n : Nat) : String :=
  let s := toString n
  "d" ++ String.mk (List.replicate (3 - s.length) '0') ++ s

/-- Synthetic 252-day flat price series for the C10 witness. -/
def c10series : List (String × ℚ) :=
  (List.range 252).map (fun n => (natDateStr n, 1))

/-- Witness for C10: a 252-day series whose anchor lands at index 251. -/
theorem trend_no_20d_60d_reasons_witness :
    (computeTrend (some (natDateStr 251)) c10series).reason? ≠
      some "insufficient_history_for_60d" ∧
    (computeTrend (some (natDateStr 251)) c10series).reason? ≠
      some "insufficient_history_for_20d" ∧
    251 ≤ 251 := by
  have h := trend_no_20d_60d_reasons (some (natDateStr 251)) c10series
  exact ⟨h.1, h.2.1, h.2.2 251 (by decide) (by decide)⟩

/-! ## Aggregation (`insider_platform/compute/aggregate.py`, `_rollup_side`) -/

/-- One `form4_rows_raw` row, restricted to the columns `_rollup_side` reads.
Numeric columns are `Option ℚ` (`none` models SQL NULL or a value failing the
`isinstance((int, float))` checks); `row_id` is `none` when `int(row_id)`
would raise. -/
structure Form4Row where
  is_derivative : Bool
  transaction_code : String
  transaction_date : Option String
  shares_abs : Option ℚ
  price : Option ℚ
  shares_owned_following : Option ℚ
  row_id : Option Int
deriving DecidableEq

/-- Python truthiness of an optional string (`if r["transaction_date"]`). -/
def optStrTruthy : Option String → Bool
  | none => false
  | some s => s ≠ ""

/-- Sort/selection key of `_sof_key`: `(transaction_date or "", int(row_id) or 0)`. -/
def sofKey (r : Form4Row) : String × Int :=
  (r.transaction_date.getD "", r.row_id.getD 0)

/-- Python tuple comparison `sofKey a < sofKey b`. -/
def sofKeyLt (a b : String × Int) : Bool :=
  strLt a.1 b.1 || (a.1 == b.1 && decide (a.2 < b.2))

/-- Python `max(rows, key=_sof_key)`: keeps the first row among equal maxima
(a later row replaces the current one only when its key is strictly greater). -/
def maxBySofKey (cur : Form4Row) : List Form4Row → Form4Row
  | [] => cur
  | r :: rest =>
    if sofKeyLt (sofKey cur) (sofKey r) then maxBySofKey r rest
    else maxBySofKey cur rest

/-- Output of `_rollup_side` when the side has matching rows (otherwise the
source returns `{"has": False}`, modelled as `none`). -/
structure SideRollup where
  trade_date : Option String
  last_tx_date : Option String
  shares_total : Option ℚ
  dollars_total : Option ℚ
  vwap_price : Option ℚ
  priced_shares_total : ℚ
  unpriced_shares_total : Option ℚ
  vwap_is_partial : Bool
  shares_owned_following : Option ℚ
  pct_holdings_change : Option ℚ
  pct_change_missing_reason : Option String
deriving DecidableEq

/-- Side selection of `_rollup_side`:
`[r for r in rows if int(r["is_derivative"]) == 0 and r["transaction_code"] == code]`. -/
def sideRows (rows : List Form4Row) (code : String) : List Form4Row :=
  rows.filter (fun r => !r.is_derivative && r.transaction_code == code)

/-- Dates list of `_rollup_side`: truthy `transaction_date` values of the side rows. -/
def rollupDates (side_rows : List Form4Row) : List String :=
  (side_rows.filter (fun r => optStrTruthy r.transaction_date)).filterMap
    (fun r => r.transaction_date)

/-- Accumulation loop of `_rollup_side` over `(priced_shares_total, dollars_total)`:
a row contributes its shares and `shares × price` only when both parse as
numbers and the price is positive. -/
def pricedTotals (side_rows : List Form4Row) : ℚ × ℚ :=
  side_rows.foldl (fun (acc : ℚ × ℚ) r =>
    match r.shares_abs, r.price with
    | some sh, some pr => if 0 < pr then (acc.1 + sh, acc.2 + sh * pr) else acc
    | _, _ => acc) (0, 0)

/-- The `shares_total` of `_rollup_side`: sum of the numeric `shares_abs`
values, `None` when no row has one. -/
def sharesTotal (side_rows : List Form4Row) : Option ℚ :=
  let shares_vals := side_rows.filterMap (fun r => r.shares_abs)
  if shares_vals.isEmpty then none else some shares_vals.sum

/-- The `shares_owned_following` of `_rollup_side`: value carried by the row
maximal under `_sof_key` among the rows with a numeric value (`max` keeps the
first among equal keys). -/
def rollupSof (side_rows : List Form4Row) : Option ℚ :=
  match side_rows.filter (fun r => r.shares_owned_following.isSome) with
  | [] => none
  | r0 :: rest => (maxBySofKey r0 rest).shares_owned_following

/-- The `pct_holdings_change` / `pct_change_missing_reason` block of
`_rollup_side`. -/
def pctChange (code : String) (shares_total sof : Option ℚ) :
    Option ℚ × Option String :=
  match shares_total with
  | none => (none, some "missing_shares_total")
  | some st =>
    if st ≤ 0 then (none, some "missing_shares_total")
    else
      match sof with
      | none => (none, some "missing_shares_owned_following")
      | some s =>
        let shares_before : Option ℚ :=
          if code = "P" then some (s - st)
          else if code = "S" then some (s + st)
          else none
        match shares_before with
        | none => (none, some "nonpositive_shares_before")
        | some sb =>
          if sb ≤ 0 then (none, some "nonpositive_shares_before")
          else (some (st / sb * 100), none)

/-- Embedding of `_rollup_side(rows, code)`: rolls up the open-market
non-derivative transactions whose `transaction_code` equals `code`
('P' = buy, 'S' = sell).  Returns `none` when no row matches. -/
def rollupSide (rows : List Form4Row) (code : String) : Option SideRollup :=
  let side_rows := sideRows rows code
  if side_rows.isEmpty then none
  else
    let priced_shares_total := (pricedTotals side_rows).1
    let dollars_total := (pricedTotals side_rows).2
    let shares_total := sharesTotal side_rows
    some {
      trade_date := listMinStr? (rollupDates side_rows)
      last_tx_date := listMaxStr? (rollupDates side_rows)
      shares_total := shares_total
      dollars_total := if 0 < priced_shares_total then some dollars_total else none
      vwap_price :=
        if 0 < priced_shares_total then some (dollars_total / priced_shares_total)
        else none
      priced_shares_total := if 0 < priced_shares_total then priced_shares_total else 0
      unpriced_shares_total := shares_total.map (fun st => st - priced_shares_total)
      vwap_is_partial :=
        match shares_total with
        | some st => if 0 < st then decide (priced_shares_total < st) else false
        | none => false
      shares_owned_following := rollupSof side_rows
      pct_holdings_change := (pctChange code shares_total (rollupSof side_rows)).1
      pct_change_missing_reason := (pctChange code shares_total (rollupSof side_rows)).2 }

/-- Field characterization of a successful `_rollup_side` result. -/
theorem rollupSide_fields (rows : List Form4Row) (code : String) (roll : SideRollup)
    (h : rollupSide rows code = some roll) :
    roll.shares_total = sharesTotal (sideRows rows code) ∧
    roll.shares_owned_following = rollupSof (sideRows rows code) ∧
    roll.pct_holdings_change =
      (pctChange code (sharesTotal (sideRows rows code)) (rollupSof (sideRows rows code))).1 ∧
    roll.pct_change_missing_reason =
      (pctChange code (sharesTotal (sideRows rows code)) (rollupSof (sideRows rows code))).2 ∧
    roll.priced_shares_total =
      (if 0 < (pricedTotals (sideRows rows code)).1 then (pricedTotals (sideRows rows code)).1 else 0) ∧
    roll.dollars_total =
      (if 0 < (pricedTotals (sideRows rows code)).1 then some (pricedTotals (sideRows rows code)).2 else none) ∧
    roll.vwap_price =
      (if 0 < (pricedTotals (sideRows rows code)).1 then
        some ((pricedTotals (sideRows rows code)).2 / (pricedTotals (sideRows rows code)).1)
      else none) ∧
    roll.vwap_is_partial =
      (match sharesTotal (sideRows rows code) with
       | some st => if 0 < st then decide ((pricedTotals (sideRows rows code)).1 < st) else false
       | none => false) := by
  simp only [rollupSide] at h
  by_cases he : (sideRows rows code).isEmpty
  · rw [if_pos he] at h; cases h
  · rw [if_neg he] at h
    have h2 := Option.some.inj h
    subst h2
    exact ⟨rfl, rfl, rfl, rfl, rfl, rfl, rfl, rfl⟩

/-- C1: classification of `pct_holdings_change` and its missing-reason for a
side rollup (buy = 'P', sell = 'S'): a missing or non-positive `shares_total`
gives `missing_shares_total`; then a missing `shares_owned_following` gives
`missing_shares_owned_following`; then with `before = sof - total` (buy) or
`sof + total` (sell), a non-positive `before` gives
`nonpositive_shares_before`, and otherwise
`pct = (total / before) * 100` (percent units), so that
`after = before * (1 + pct/100)` for a pure buy and
`after = before * (1 - pct/100)` for a pure sell. -/
theorem pct_holdings_change_spec (rows : List Form4Row) (code : String)
    (roll : SideRollup) (hcode : code = "P" ∨ code = "S")
    (h : rollupSide rows code = some roll) :
    (roll.shares_total = none →
      roll.pct_change_missing_reason = some "missing_shares_total" ∧
      roll.pct_holdings_change = none) ∧
    (∀ st, roll.shares_total = some st → st ≤ 0 →
      roll.pct_change_missing_reason = some "missing_shares_total" ∧
      roll.pct_holdings_change = none) ∧
    (∀ st, roll.shares_total = some st → 0 < st →
      roll.shares_owned_following = none →
      roll.pct_change_missing_reason = some "missing_shares_owned_following" ∧
      roll.pct_holdings_change = none) ∧
    (∀ st sof, roll.shares_total = some st → 0 < st →
      roll.shares_owned_following = some sof →
      (code = "P" →
        ((sof - st ≤ 0 →
          roll.pct_change_missing_reason = some "nonpositive_shares_before" ∧
          roll.pct_holdings_change = none) ∧
         (0 < sof - st →
          roll.pct_holdings_change = some (st / (sof - st) * 100) ∧
          roll.pct_change_missing_reason = none ∧
          sof = (sof - st) * (1 + st / (sof - st) * 100 / 100)))) ∧
      (code = "S" →
        ((sof + st ≤ 0 →
          roll.pct_change_missing_reason = some "nonpositive_shares_before" ∧
          roll.pct_holdings_change = none) ∧
         (0 < sof + st →
          roll.pct_holdings_change = some (st / (sof + st) * 100) ∧
          roll.pct_change_missing_reason = none ∧
          sof = (sof + st) * (1 - st / (sof + st) * 100 / 100))))) := by
  obtain ⟨hst, hsof, hp1, hp2, -⟩ := rollupSide_fields rows code roll h
  refine ⟨?_, ?_, ?_, ?_⟩
  · intro h0
    rw [hst] at h0
    rw [hp1, hp2, h0]
    simp [pctChange]
  · intro st h0 hle
    rw [hst] at h0
    rw [hp1, hp2, h0]
    simp [pctChange, hle]
  · intro st h0 hpos h1
    rw [hst] at h0
    rw [hsof] at h1
    rw [hp1, hp2, h0, h1]
    simp [pctChange, not_le.mpr hpos]
  · intro st sof h0 hpos h1
    rw [hst] at h0
    rw [hsof] at h1
    rw [hp1, hp2, h0, h1]
    constructor
    · intro hP
      subst hP
      constructor
      · intro hble
        simp [pctChange, not_le.mpr hpos, hble]
      · intro hbpos
        have hbne : sof - st ≠ 0 := ne_of_gt hbpos
        refine ⟨?_, ?_, ?_⟩
        · simp [pctChange, not_le.mpr hpos, not_le.mpr hbpos]
        · simp [pctChange, not_le.mpr hpos, not_le.mpr hbpos]
        · field_simp
          ring
    · intro hS
      subst hS
      have hPne : ("S" : String) ≠ "P" := by decide
      constructor
      · intro hble
        simp [pctChange, not_le.mpr hpos, hble, hPne]
      · intro hbpos
        have hbne : sof + st ≠ 0 := ne_of_gt hbpos
        refine ⟨?_, ?_, ?_⟩
        · simp [pctChange, not_le.mpr hpos, not_le.mpr hbpos, hPne]
        · simp [pctChange, not_le.mpr hpos, not_le.mpr hbpos, hPne]
        · field_simp
          ring

/-- Concrete single-row buy filing for the C1 witness. -/
def c1rows : List Form4Row :=
  [⟨false, "P", some "2024-01-02", some 50, some 10, some 150, some 1⟩]

/-- Rollup of `c1rows` on the buy side. -/
def c1roll : SideRollup :=
  { trade_date := some "2024-01-02"
    last_tx_date := some "2024-01-02"
    shares_total := some 50
    dollars_total := some 500
    vwap_price := some 10
    priced_shares_total := 50
    unpriced_shares_total := some 0
    vwap_is_partial := false
    shares_owned_following := some 150
    pct_holdings_change := some 50
    pct_change_missing_reason := none }

/-- Witness for C1: a buy of 50 shares ending at 150 owned gives
`before = 100` and `pct = 50`, and `after = before * (1 + pct/100)`. -/
theorem pct_holdings_change_spec_witness :
    c1roll.pct_holdings_change = some ((50 : ℚ) / (150 - 50) * 100) ∧
    c1roll.pct_change_missing_reason = none ∧
    (150 : ℚ) = ((150 : ℚ) - 50) * (1 + (50 : ℚ) / ((150 : ℚ) - 50) * 100 / 100) := by
  have hr : rollupSide c1rows "P" = some c1roll := by
    simp only [rollupSide, sideRows, c1rows, c1roll, rollupDates, pricedTotals,
      sharesTotal, rollupSof, maxBySofKey, sofKey, sofKeyLt, optStrTruthy,
      listMinStr?, listMaxStr?, pctChange, List.filter, List.filterMap,
      List.foldl, List.isEmpty, List.sum]
    norm_num [maxBySofKey, pctChange]
  have h := (pct_holdings_change_spec c1rows "P" c1roll (Or.inl rfl) hr).2.2.2
    50 150 (by simp [c1roll]) (by norm_num) (by simp [c1roll])
  exact (h.1 rfl).2 (by norm_num)

/-- A row that contributes to the priced totals: numeric shares and a
positive numeric price. -/
def pricedRowP (r : Form4Row) : Bool :=
  match r.shares_abs, r.price with
  | some _, some pr => decide (0 < pr)
  | _, _ => false

/-- A row with numeric shares that does not contribute to the priced totals. -/
def unpricedNumericP (r : Form4Row) : Bool :=
  r.shares_abs.isSome && !pricedRowP r

/-- Shares contributed by a row (0 substituted for a missing value). -/
def rowShares (r : Form4Row) : ℚ := r.shares_abs.getD 0

/-- Dollars contributed by a row (0 substituted for missing values). -/
def rowDollars (r : Form4Row) : ℚ := r.shares_abs.getD 0 * r.price.getD 0

/-- Shares of the priced rows of a side. -/
def pricedSharesSum (s : List Form4Row) : ℚ :=
  ((s.filter pricedRowP).map rowShares).sum

/-- Dollars of the priced rows of a side. -/
def pricedDollarsSum (s : List Form4Row) : ℚ :=
  ((s.filter pricedRowP).map rowDollars).sum

theorem pricedTotals_go (s : List Form4Row) (a b : ℚ) :
    s.foldl (fun (acc : ℚ × ℚ) r =>
      match r.shares_abs, r.price with
      | some sh, some pr => if 0 < pr then (acc.1 + sh, acc.2 + sh * pr) else acc
      | _, _ => acc) (a, b) =
    (a + pricedSharesSum s, b + pricedDollarsSum s) := by
  induction s generalizing a b with
  | nil => simp [pricedSharesSum, pricedDollarsSum]
  | cons r rest ih =>
    cases hsh : r.shares_abs with
    | none =>
      have hp : pricedRowP r = false := by simp [pricedRowP, hsh]
      simp only [List.foldl_cons, hsh]
      rw [ih]
      simp [pricedSharesSum, pricedDollarsSum, List.filter_cons, hp]
    | some sh =>
      cases hpr : r.price with
      | none =>
        have hp : pricedRowP r = false := by simp [pricedRowP, hsh, hpr]
        simp only [List.foldl_cons, hsh, hpr]
        rw [ih]
        simp [pricedSharesSum, pricedDollarsSum, List.filter_cons, hp]
      | some pr =>
        by_cases hpos : 0 < pr
        · have hp : pricedRowP r = true := by simp [pricedRowP, hsh, hpr, hpos]
          simp only [List.foldl_cons, hsh, hpr, if_pos hpos]
          rw [ih]
          have hrs : rowShares r = sh := by simp [rowShares, hsh]
          have hrd : rowDollars r = sh * pr := by simp [rowDollars, hsh, hpr]
          rw [Prod.mk.injEq]
          simp only [pricedSharesSum, pricedDollarsSum, List.filter_cons, hp,
            if_true, List.map_cons, List.sum_cons, hrs, hrd]
          constructor <;> ring
        · have hp : pricedRowP r = false := by
            simp [pricedRowP, hsh, hpr]
            exact le_of_not_lt hpos
          simp only [List.foldl_cons, hsh, hpr, if_neg hpos]
          rw [ih]
          simp [pricedSharesSum, pricedDollarsSum, List.filter_cons, hp]

theorem pricedTotals_eq (s : List Form4Row) :
    pricedTotals s = (pricedSharesSum s, pricedDollarsSum s) := by
  unfold pricedTotals
  rw [pricedTotals_go]
  simp

/-- Decomposition of the numeric shares of a side into priced and unpriced. -/
theorem sharesSum_split (s : List Form4Row) :
    (s.filterMap (fun r => r.shares_abs)).sum =
    pricedSharesSum s + ((s.filter unpricedNumericP).map rowShares).sum := by
  induction s with
  | nil => simp [pricedSharesSum]
  | cons r rest ih =>
    cases hsh : r.shares_abs with
    | none =>
      have hp : pricedRowP r = false := by simp [pricedRowP, hsh]
      have hu : unpricedNumericP r = false := by simp [unpricedNumericP, hsh]
      simp only [List.filterMap_cons, hsh]
      rw [ih]
      simp [pricedSharesSum, List.filter_cons, hp, hu]
    | some sh =>
      have hrs : rowShares r = sh := by simp [rowShares, hsh]
      by_cases hp : pricedRowP r = true
      · have hu : unpricedNumericP r = false := by simp [unpricedNumericP, hp]
        simp only [List.filterMap_cons, hsh]
        rw [List.sum_cons, ih]
        simp [pricedSharesSum, List.filter_cons, hp, hu, hrs, add_assoc]
      · have hp2 : pricedRowP r = false := by simpa using hp
        have hu : unpricedNumericP r = true := by simp [unpricedNumericP, hsh, hp2]
        simp only [List.filterMap_cons, hsh]
        rw [List.sum_cons, ih]
        simp [pricedSharesSum, List.filter_cons, hp2, hu, hrs]
        ring

theorem sharesTotal_eq_some (s : List Form4Row) (st : ℚ)
    (h : sharesTotal s = some st) :
    st = (s.filterMap (fun r => r.shares_abs)).sum := by
  unfold sharesTotal at h
  by_cases he : (s.filterMap (fun r => r.shares_abs)).isEmpty
  · rw [if_pos he] at h; cases h
  · rw [if_neg he] at h
    exact (Option.some.inj h).symm

/-- C2 (amended): only rows with numeric shares and a positive parsed price
contribute to `priced_shares_total` / `dollars_total`; the VWAP equals
dollars over priced shares and is null exactly when no shares are priced;
when every side row carries a positive price,
`dollars_total = vwap_price * shares_total` and `vwap_is_partial = false`;
and — provided numeric shares are nonnegative and `shares_total` is positive
— `vwap_is_partial = true` whenever some row with positive shares lacks a
positive price. -/
theorem vwap_pricing_spec (rows : List Form4Row) (code : String) (roll : SideRollup)
    (h : rollupSide rows code = some roll) :
    (0 < pricedSharesSum (sideRows rows code) →
      roll.priced_shares_total = pricedSharesSum (sideRows rows code) ∧
      roll.dollars_total = some (pricedDollarsSum (sideRows rows code)) ∧
      roll.vwap_price = some (pricedDollarsSum (sideRows rows code) /
        pricedSharesSum (sideRows rows code))) ∧
    (¬ 0 < pricedSharesSum (sideRows rows code) →
      roll.priced_shares_total = 0 ∧
      roll.dollars_total = none ∧
      roll.vwap_price = none) ∧
    ((∀ r ∈ sideRows rows code, ∃ pr, r.price = some pr ∧ 0 < pr) →
      ∀ st, roll.shares_total = some st →
        roll.vwap_is_partial = false ∧
        (∀ v, roll.vwap_price = some v → roll.dollars_total = some (v * st))) ∧
    ((∀ r ∈ sideRows rows code, ∀ q, r.shares_abs = some q → 0 ≤ q) →
      ∀ st, roll.shares_total = some st → 0 < st →
      ∀ r ∈ sideRows rows code, ∀ q, r.shares_abs = some q → 0 < q →
        pricedRowP r = false → roll.vwap_is_partial = true) := by
  obtain ⟨hst, -, -, -, hpst, hdt, hvw, hpart⟩ := rollupSide_fields rows code roll h
  rw [pricedTotals_eq] at hpst hdt hvw hpart
  refine ⟨?_, ?_, ?_, ?_⟩
  · intro hpos
    rw [hpst, hdt, hvw]
    simp [hpos]
  · intro hneg
    rw [hpst, hdt, hvw]
    simp [hneg]
  · intro hall st hsteq
    have hsteq' : sharesTotal (sideRows rows code) = some st := hst ▸ hsteq
    have hU : (sideRows rows code).filter unpricedNumericP = [] := by
      rw [List.filter_eq_nil_iff]
      intro r hr
      obtain ⟨pr, hpr, hprpos⟩ := hall r hr
      cases hsh : r.shares_abs with
      | none => simp [unpricedNumericP, hsh]
      | some sh =>
        have hp : pricedRowP r = true := by simp [pricedRowP, hsh, hpr, hprpos]
        simp [unpricedNumericP, hp]
    have hstP : st = pricedSharesSum (sideRows rows code) := by
      rw [sharesTotal_eq_some _ _ hsteq', sharesSum_split, hU]
      simp
    constructor
    · rw [hpart, hsteq']
      by_cases hstpos : 0 < st
      · simp [hstpos, ← hstP]
      · simp [hstpos]
    · intro v hv
      rw [hvw] at hv
      by_cases hpos : 0 < pricedSharesSum (sideRows rows code)
      · rw [if_pos hpos] at hv
        have hveq := Option.some.inj hv
        rw [hdt, if_pos hpos]
        have hne : pricedSharesSum (sideRows rows code) ≠ 0 := ne_of_gt hpos
        rw [← hveq, hstP]
        congr 1
        field_simp
      · rw [if_neg hpos] at hv
        cases hv
  · intro hnn st hsteq hstpos r hr q hq hqpos hnp
    have hsteq' : sharesTotal (sideRows rows code) = some st := hst ▸ hsteq
    rw [hpart, hsteq']
    have hsplit := sharesSum_split (sideRows rows code)
    have hstsum := sharesTotal_eq_some _ _ hsteq'
    have hu : unpricedNumericP r = true := by simp [unpricedNumericP, hq, hnp]
    have hmem : rowShares r ∈ ((sideRows rows code).filter unpricedNumericP).map rowShares :=
      List.mem_map.mpr ⟨r, List.mem_filter.mpr ⟨hr, hu⟩, rfl⟩
    have hnonneg : ∀ x ∈ ((sideRows rows code).filter unpricedNumericP).map rowShares, 0 ≤ x := by
      intro x hx
      obtain ⟨r2, hr2, hx2⟩ := List.mem_map.mp hx
      have hr2s := (List.mem_filter.mp hr2).1
      cases hsh2 : r2.shares_abs with
      | none => rw [← hx2]; simp [rowShares, hsh2]
      | some q2 =>
        rw [← hx2]
        have := hnn r2 hr2s q2 hsh2
        simp [rowShares, hsh2, this]
    have hle : rowShares r ≤ (((sideRows rows code).filter unpricedNumericP).map rowShares).sum :=
      List.single_le_sum hnonneg _ hmem
    have hrq : rowShares r = q := by simp [rowShares, hq]
    rw [hrq] at hle
    have hPlt : pricedSharesSum (sideRows rows code) < st := by
      rw [hstsum, hsplit]
      linarith
    simp [hstpos, hPlt]

/-- Evaluation of the rollup on the concrete single-row filing `c1rows`. -/
theorem c1rollup_eq : rollupSide c1rows "P" = some c1roll := by
  simp only [rollupSide, sideRows, c1rows, c1roll, rollupDates, pricedTotals,
    sharesTotal, rollupSof, maxBySofKey, sofKey, sofKeyLt, optStrTruthy,
    listMinStr?, listMaxStr?, pctChange, List.filter, List.filterMap,
    List.foldl, List.isEmpty, List.sum]
  norm_num [maxBySofKey, pctChange]

/-- Witness for C2 at `c1rows`: priced shares 50, dollars 500, VWAP 10. -/
theorem vwap_pricing_spec_witness :
    c1roll.priced_shares_total = pricedSharesSum (sideRows c1rows "P") ∧
    c1roll.dollars_total = some (pricedDollarsSum (sideRows c1rows "P")) ∧
    c1roll.vwap_price = some (pricedDollarsSum (sideRows c1rows "P") /
      pricedSharesSum (sideRows c1rows "P")) := by
  refine (vwap_pricing_spec c1rows "P" c1roll c1rollup_eq).1 ?_
  simp [pricedSharesSum, sideRows, c1rows, pricedRowP, rowShares]

/-- Two-row buy side: one fully priced row, one row with no parsed shares and
no parsed price. -/
def c2rows : List Form4Row :=
  [⟨false, "P", some "2024-01-02", some 10, some 5, some 100, some 1⟩,
   ⟨false, "P", some "2024-01-03", none, none, none, some 2⟩]

/-- Counterexample for C2 as stated: a side row lacks a price, yet
`vwap_is_partial` is `false`, because the unpriced row carries no numeric
shares and the priced shares therefore cover `shares_total` exactly. -/
theorem vwap_partial_counterexample :
    (rollupSide c2rows "P").map SideRollup.vwap_is_partial = some false ∧
    c2rows.any (fun r => !r.is_derivative && r.transaction_code == "P" &&
      r.price.isNone) = true := by
  constructor
  · simp only [rollupSide, sideRows, c2rows, rollupDates, pricedTotals,
      sharesTotal, rollupSof, maxBySofKey, sofKey, sofKeyLt, optStrTruthy,
      listMinStr?, listMaxStr?, pctChange, List.filter, List.filterMap,
      List.foldl, List.isEmpty, List.sum]
    norm_num
  · rfl

theorem charLtb_iff (x y : Char) : charLtb x y = true ↔ x < y := by
  simp [charLtb, Char.lt_def]

theorem charLtb_irrefl (x : Char) : charLtb x x = false := by
  simp [charLtb]

theorem charLtb_trans {x y z : Char} (h1 : charLtb x y = true)
    (h2 : charLtb y z = true) : charLtb x z = true :=
  (charLtb_iff x z).mpr (lt_trans ((charLtb_iff x y).mp h1) ((charLtb_iff y z).mp h2))

theorem charLtb_eq_of_not {x y : Char} (h1 : charLtb x y = false)
    (h2 : charLtb y x = false) : x = y := by
  have h1' : ¬ x < y := fun hc => by rw [(charLtb_iff x y).mpr hc] at h1; cases h1
  have h2' : ¬ y < x := fun hc => by rw [(charLtb_iff y x).mpr hc] at h2; cases h2
  exact le_antisymm (not_lt.mp h2') (not_lt.mp h1')

theorem listLexLt_irrefl (a : List Char) : listLexLt a a = false := by
  induction a with
  | nil => rfl
  | cons x xs ih => simp [listLexLt, charLtb_irrefl, ih]

theorem listLexLt_trans {a b c : List Char} (h1 : listLexLt a b = true)
    (h2 : listLexLt b c = true) : listLexLt a c = true := by
  induction a generalizing b c with
  | nil =>
    cases b with
    | nil => simp [listLexLt] at h1
    | cons y ys =>
      cases c with
      | nil => simp [listLexLt] at h2
      | cons z zs => rfl
  | cons x xs ih =>
    cases b with
    | nil => simp [listLexLt] at h1
    | cons y ys =>
      cases c with
      | nil => simp [listLexLt] at h2
      | cons z zs =>
        simp only [listLexLt] at h1 h2 ⊢
        by_cases hxy : charLtb x y = true
        · by_cases hyz : charLtb y z = true
          · simp [charLtb_trans hxy hyz]
          · have hyz' : charLtb y z = false := by simpa using hyz
            simp only [hyz', Bool.false_eq_true, if_false] at h2
            by_cases hzy : charLtb z y = true
            · simp [hzy] at h2
            · have hzy' : charLtb z y = false := by simpa using hzy
              have hyzeq : y = z := charLtb_eq_of_not hyz' hzy'
              subst hyzeq
              simp [hxy]
        · have hxy' : charLtb x y = false := by simpa using hxy
          simp only [hxy', Bool.false_eq_true, if_false] at h1
          by_cases hyx : charLtb y x = true
          · simp [hyx] at h1
          · have hyx' : charLtb y x = false := by simpa using hyx
            simp only [hyx', Bool.false_eq_true, if_false] at h1
            have hxyeq : x = y := charLtb_eq_of_not hxy' hyx'
            subst hxyeq
            by_cases hxz : charLtb x z = true
            · simp [hxz]
            · have hxz' : charLtb x z = false := by simpa using hxz
              simp only [hxz', Bool.false_eq_true, if_false] at h2 ⊢
              by_cases hzx : charLtb z x = true
              · simp [hzx] at h2
              · have hzx' : charLtb z x = false := by simpa using hzx
                simp only [hzx', Bool.false_eq_true, if_false] at h2 ⊢
                exact ih h1 h2

theorem listLexLt_eq_of_not {a b : List Char} (h1 : listLexLt a b = false)
    (h2 : listLexLt b a = false) : a = b := by
  induction a generalizing b with
  | nil =>
    cases b with
    | nil => rfl
    | cons y ys => simp [listLexLt] at h1
  | cons x xs ih =>
    cases b with
    | nil => simp [listLexLt] at h2
    | cons y ys =>
      simp only [listLexLt] at h1 h2
      by_cases hxy : charLtb x y = true
      · simp [hxy] at h1
      · have hxy' : charLtb x y = false := by simpa using hxy
        simp only [hxy', Bool.false_eq_true, if_false] at h1 h2
        by_cases hyx : charLtb y x = true
        · simp [hyx] at h2
        · have hyx' : charLtb y x = false := by simpa using hyx
          simp only [hyx', Bool.false_eq_true, if_false] at h1 h2
          have hxyeq : x = y := charLtb_eq_of_not hxy' hyx'
          rw [hxyeq, ih h1 h2]

theorem strLt_irrefl (a : String) : strLt a a = false := by
  simp [strLt, listLexLt_irrefl]

theorem strLt_trans {a b c : String} (h1 : strLt a b = true)
    (h2 : strLt b c = true) : strLt a c = true :=
  listLexLt_trans h1 h2

theorem strLt_eq_of_not {a b : String} (h1 : strLt a b = false)
    (h2 : strLt b a = false) : a = b := by
  cases a with
  | mk da =>
    cases b with
    | mk db =>
      simp only [strLt] at h1 h2
      rw [listLexLt_eq_of_not h1 h2]

theorem sofKeyLt_irrefl (k : String × Int) : sofKeyLt k k = false := by
  simp [sofKeyLt, strLt_irrefl]

theorem sofKeyLt_trans {k1 k2 k3 : String × Int} (h1 : sofKeyLt k1 k2 = true)
    (h2 : sofKeyLt k2 k3 = true) : sofKeyLt k1 k3 = true := by
  simp only [sofKeyLt, Bool.or_eq_true, Bool.and_eq_true, beq_iff_eq,
    decide_eq_true_eq] at h1 h2 ⊢
  rcases h1 with h1 | ⟨h1e, h1i⟩
  · rcases h2 with h2 | ⟨h2e, h2i⟩
    · exact Or.inl (strLt_trans h1 h2)
    · exact Or.inl (h2e ▸ h1)
  · rcases h2 with h2 | ⟨h2e, h2i⟩
    · exact Or.inl (h1e ▸ h2)
    · exact Or.inr ⟨h1e.trans h2e, lt_trans h1i h2i⟩

theorem sofKeyLt_resolve {k1 k2 : String × Int} (h : sofKeyLt k1 k2 = false) :
    sofKeyLt k2 k1 = true ∨ k1 = k2 := by
  simp only [sofKeyLt, Bool.or_eq_false_iff, Bool.and_eq_false_iff] at h
  obtain ⟨hs, hrest⟩ := h
  by_cases hba : strLt k2.1 k1.1 = true
  · exact Or.inl (by simp [sofKeyLt, hba])
  · have hba' : strLt k2.1 k1.1 = false := by simpa using hba
    have heq : k1.1 = k2.1 := strLt_eq_of_not hs hba'
    have hilt : ¬ k1.2 < k2.2 := by
      rcases hrest with hrest | hrest
      · rw [heq] at hrest
        simp at hrest
      · simpa using hrest
    by_cases hlt : k2.2 < k1.2
    · exact Or.inl (by simp [sofKeyLt, heq, hlt])
    · have hieq : k1.2 = k2.2 := le_antisymm (not_lt.mp hlt) (not_lt.mp hilt)
      exact Or.inr (Prod.ext heq hieq)

theorem sofKeyLt_not_of_not {k1 k2 k3 : String × Int}
    (h1 : sofKeyLt k1 k2 = false) (h2 : sofKeyLt k2 k3 = false) :
    sofKeyLt k1 k3 = false := by
  by_contra hc
  have hc' : sofKeyLt k1 k3 = true := by simpa using hc
  rcases sofKeyLt_resolve h1 with h | h
  · have hx := sofKeyLt_trans h hc'
    rw [hx] at h2
    cases h2
  · rw [h] at hc'
    rw [hc'] at h2
    cases h2

/-- Python `max(rows, key=_sof_key)` returns a row of the collection whose
key is maximal. -/
theorem maxBySofKey_spec (cur : Form4Row) (l : List Form4Row) :
    (maxBySofKey cur l = cur ∨ maxBySofKey cur l ∈ l) ∧
    sofKeyLt (sofKey (maxBySofKey cur l)) (sofKey cur) = false ∧
    (∀ r ∈ l, sofKeyLt (sofKey (maxBySofKey cur l)) (sofKey r) = false) := by
  induction l generalizing cur with
  | nil =>
    exact ⟨Or.inl rfl, sofKeyLt_irrefl _, by intro r hr; cases hr⟩
  | cons r rest ih =>
    by_cases h : sofKeyLt (sofKey cur) (sofKey r) = true
    · have heval : maxBySofKey cur (r :: rest) = maxBySofKey r rest := by
        simp [maxBySofKey, h]
      obtain ⟨hmem, hcur, hall⟩ := ih r
      rw [heval]
      refine ⟨?_, ?_, ?_⟩
      · rcases hmem with hm | hm
        · exact Or.inr (by simp [hm])
        · exact Or.inr (List.mem_cons_of_mem _ hm)
      · by_contra hc
        have hc' : sofKeyLt (sofKey (maxBySofKey r rest)) (sofKey cur) = true := by
          simpa using hc
        have := sofKeyLt_trans hc' h
        rw [this] at hcur
        cases hcur
      · intro r2 hr2
        rcases List.mem_cons.mp hr2 with hm | hm
        · rw [hm]; exact hcur
        · exact hall r2 hm
    · have h' : sofKeyLt (sofKey cur) (sofKey r) = false := by simpa using h
      have heval : maxBySofKey cur (r :: rest) = maxBySofKey cur rest := by
        simp [maxBySofKey, h']
      obtain ⟨hmem, hcur, hall⟩ := ih cur
      rw [heval]
      refine ⟨?_, hcur, ?_⟩
      · rcases hmem with hm | hm
        · exact Or.inl hm
        · exact Or.inr (List.mem_cons_of_mem _ hm)
      · intro r2 hr2
        rcases List.mem_cons.mp hr2 with hm | hm
        · rw [hm]
          exact sofKeyLt_not_of_not hcur h'
        · exact hall r2 hm

/-- Two-row buy side whose latest row (by date) carries the smaller
shares-owned-following value. -/
def c3rows : List Form4Row :=
  [⟨false, "P", some "2024-01-02", some 1, some 1, some 10, some 1⟩,
   ⟨false, "P", some "2024-01-01", some 1, some 1, some 999, some 2⟩]

/-- C3: a successful side rollup stores as `shares_owned_following` the value
of a row whose `(transaction_date, row_id)` key is maximal among the side's
rows carrying a value (the latest row), and on a concrete two-leg filing this
differs from the maximum shares-owned-following value across the side. -/
theorem sof_latest_row_spec (rows : List Form4Row) (code : String)
    (roll : SideRollup) (h : rollupSide rows code = some roll) :
    (((sideRows rows code).filter (fun r => r.shares_owned_following.isSome) = [] →
       roll.shares_owned_following = none) ∧
     (∀ r0 rest,
       (sideRows rows code).filter (fun r => r.shares_owned_following.isSome) =
         r0 :: rest →
       ∃ rb, (rb = r0 ∨ rb ∈ rest) ∧
         roll.shares_owned_following = rb.shares_owned_following ∧
         ∀ r2, (r2 = r0 ∨ r2 ∈ rest) →
           sofKeyLt (sofKey rb) (sofKey r2) = false)) ∧
    (rollupSide c3rows "P").bind SideRollup.shares_owned_following = some 10 ∧
    listMax? ((sideRows c3rows "P").filterMap
      (fun r => r.shares_owned_following)) = some 999 := by
  obtain ⟨-, hsof, -⟩ := rollupSide_fields rows code roll h
  refine ⟨⟨?_, ?_⟩, ?_, ?_⟩
  · intro hnil
    rw [hsof]
    unfold rollupSof
    rw [hnil]
  · intro r0 rest hcons
    rw [hsof]
    unfold rollupSof
    rw [hcons]
    obtain ⟨hmem, hcur, hall⟩ := maxBySofKey_spec r0 rest
    refine ⟨maxBySofKey r0 rest, hmem, rfl, ?_⟩
    intro r2 hr2
    rcases hr2 with hm | hm
    · rw [hm]; exact hcur
    · exact hall r2 hm
  · simp only [rollupSide, sideRows, c3rows, rollupSof, maxBySofKey, sofKey,
      sofKeyLt, strLt, listLexLt, charLtb, optStrTruthy, List.filter,
      List.isEmpty]
    norm_num [maxBySofKey, sofKey, sofKeyLt, strLt, listLexLt, charLtb]
    rw [if_neg (by decide)]
  · simp only [sideRows, c3rows, listMax?, List.filter, List.filterMap,
      List.foldl]
    norm_num

/-- Witness for C3, instantiated at `c1rows`, exposing the concrete
demonstration that the stored value is not `max()` over the side's values. -/
theorem sof_latest_row_spec_witness :
    (rollupSide c3rows "P").bind SideRollup.shares_owned_following = some 10 ∧
    listMax? ((sideRows c3rows "P").filterMap
      (fun r => r.shares_owned_following)) = some 999 := by
  have h := sof_latest_row_spec c1rows "P" c1roll c1rollup_eq
  exact ⟨h.2.1, h.2.2⟩

/-! ## Outcomes (`insider_platform/compute/outcomes.py`) -/

/-- Anchor lookup `_find_anchor_index`: first index of the series whose date
is on/after `trade_date`; `None` for a falsy trade date or when no such date
exists. -/
def findAnchorIndex (dates : List String) (trade_date : Option String) : Option Nat :=
  match trade_date with
  | none => none
  | some td => if td = "" then none else dates.findIdx? (fun d => strLe td d)

/-- Benchmark return `_bench_return`: same sign convention as the trade side. -/
def benchReturn (b0 bf : ℚ) (side : String) : ℚ :=
  if side = "buy" then bf / b0 - 1 else (b0 - bf) / b0

/-- Per-horizon trade outcome of `_compute_side` (the `+60`/`+180` blocks). -/
structure HorizonOut where
  fd : Option String
  fp : Option ℚ
  ret : Option ℚ
  reason : Option String
deriving DecidableEq

/-- The `if i + H < len(dates)` block of `_compute_side` for one horizon. -/
def horizonOut (side : String) (p0 : ℚ) (dates : List String) (closes : List ℚ)
    (i H : Nat) : HorizonOut :=
  if i + H < dates.length then
    { fd := some (dates.getD (i + H) "")
      fp := some (closes.getD (i + H) 0)
      ret := some (if side = "buy" then closes.getD (i + H) 0 / p0 - 1
                   else (p0 - closes.getD (i + H) 0) / p0)
      reason := none }
  else
    { fd := none, fp := none, ret := none, reason := some "insufficient_future_data" }

/-- The benchmark block of `_compute_side` restricted to one horizon:
returns `(bench_return, bench_missing_reason)`. -/
def benchHorizon (side : String) (bdates : List String) (bcloses : List ℚ)
    (trade_date : Option String) (H : Nat) : Option ℚ × Option String :=
  if bdates.isEmpty then (none, some "missing_benchmark_series")
  else
    match findAnchorIndex bdates trade_date with
    | none => (none, some "benchmark_anchor_not_found")
    | some bi =>
      let b0 := bcloses.getD bi 0
      if b0 ≤ 0 then (none, some "benchmark_bad_p0")
      else if bi + H < bdates.length then
        (some (benchReturn b0 (bcloses.getD (bi + H) 0) side), none)
      else (none, some "insufficient_benchmark_future_data")

/-- Row written to `event_outcomes` by `_compute_side` on the computed path. -/
structure OutcomeRec where
  anchor_trading_date : String
  p0 : ℚ
  future_date_60d : Option String
  future_price_60d : Option ℚ
  return_60d : Option ℚ
  missing_reason_60d : Option String
  bench_return_60d : Option ℚ
  bench_missing_reason_60d : Option String
  excess_return_60d : Option ℚ
  future_date_180d : Option String
  future_price_180d : Option ℚ
  return_180d : Option ℚ
  missing_reason_180d : Option String
  bench_return_180d : Option ℚ
  bench_missing_reason_180d : Option String
  excess_return_180d : Option ℚ
deriving DecidableEq

/-- Result of `_compute_side`: a `_upsert_missing` write or a computed row. -/
inductive SideOutcome where
  | missing (reason : String) (bench_missing_reason : Option String)
  | computed (rec : OutcomeRec)
deriving DecidableEq

/-- Embedding of `_compute_side(...)`: guards for a falsy trade date, a
missing/non-positive `p0` and a missing anchor, then the forward returns at
+60/+180 trading days, the benchmark returns at the benchmark's own anchor
with the same sign convention, and the excess returns when both legs exist. -/
def computeSide (side : String) (trade_date : Option String) (p0 : Option ℚ)
    (dates : List String) (closes : List ℚ)
    (bdates : List String) (bcloses : List ℚ) : SideOutcome :=
  let bench_missing : Option String :=
    if bdates.isEmpty then some "missing_benchmark_series" else none
  match trade_date with
  | none => .missing "missing_trade_date" bench_missing
  | some td =>
    if td = "" then .missing "missing_trade_date" bench_missing
    else
      match p0 with
      | none => .missing "missing_or_bad_p0" bench_missing
      | some p =>
        if p ≤ 0 then .missing "missing_or_bad_p0" bench_missing
        else
          match findAnchorIndex dates (some td) with
          | none => .missing "anchor_not_found" bench_missing
          | some i =>
            let h60 := horizonOut side p dates closes i 60
            let h180 := horizonOut side p dates closes i 180
            let b60 := benchHorizon side bdates bcloses (some td) 60
            let b180 := benchHorizon side bdates bcloses (some td) 180
            let ex60 : Option ℚ :=
              match h60.ret, b60.1 with
              | some a, some b => some (a - b)
              | _, _ => none
            let ex180 : Option ℚ :=
              match h180.ret, b180.1 with
              | some a, some b => some (a - b)
              | _, _ => none
            .computed {
              anchor_trading_date := dates.getD i ""
              p0 := p
              future_date_60d := h60.fd
              future_price_60d := h60.fp
              return_60d := h60.ret
              missing_reason_60d := h60.reason
              bench_return_60d := b60.1
              bench_missing_reason_60d := b60.2
              excess_return_60d := ex60
              future_date_180d := h180.fd
              future_price_180d := h180.fp
              return_180d := h180.ret
              missing_reason_180d := h180.reason
              bench_return_180d := b180.1
              bench_missing_reason_180d := b180.2
              excess_return_180d := ex180 }

/-- A job enqueue request (`enqueue_job` arguments used by the outcomes
self-heal). -/
structure JobRequest where
  job_type : String
  dedupe_key : String
  priority : Int
deriving DecidableEq

/-- The benchmark self-heal of `compute_outcomes_for_event`: when the loaded
benchmark series is empty, enqueue one `FETCH_BENCHMARK_PRICES` job with
dedupe key `BENCH|<symbol>` at priority 120. -/
def benchSelfHealJobs (bench_series : List (String × ℚ)) (bench_symbol : String) :
    List JobRequest :=
  if bench_series.isEmpty then
    [{ job_type := "FETCH_BENCHMARK_PRICES"
       dedupe_key := "BENCH|" ++ bench_symbol
       priority := 120 }]
  else []

theorem computeSide_computed (side : String) (td : String) (p0v : ℚ)
    (dates : List String) (closes : List ℚ) (bdates : List String)
    (bcloses : List ℚ) (rec : OutcomeRec)
    (h : computeSide side (some td) (some p0v) dates closes bdates bcloses =
      .computed rec) :
    td ≠ "" ∧ 0 < p0v ∧
    ∃ i, findAnchorIndex dates (some td) = some i ∧
      rec = {
        anchor_trading_date := dates.getD i ""
        p0 := p0v
        future_date_60d := (horizonOut side p0v dates closes i 60).fd
        future_price_60d := (horizonOut side p0v dates closes i 60).fp
        return_60d := (horizonOut side p0v dates closes i 60).ret
        missing_reason_60d := (horizonOut side p0v dates closes i 60).reason
        bench_return_60d := (benchHorizon side bdates bcloses (some td) 60).1
        bench_missing_reason_60d := (benchHorizon side bdates bcloses (some td) 60).2
        excess_return_60d :=
          match (horizonOut side p0v dates closes i 60).ret,
              (benchHorizon side bdates bcloses (some td) 60).1 with
          | some a, some b => some (a - b)
          | _, _ => none
        future_date_180d := (horizonOut side p0v dates closes i 180).fd
        future_price_180d := (horizonOut side p0v dates closes i 180).fp
        return_180d := (horizonOut side p0v dates closes i 180).ret
        missing_reason_180d := (horizonOut side p0v dates closes i 180).reason
        bench_return_180d := (benchHorizon side bdates bcloses (some td) 180).1
        bench_missing_reason_180d := (benchHorizon side bdates bcloses (some td) 180).2
        excess_return_180d :=
          match (horizonOut side p0v dates closes i 180).ret,
              (benchHorizon side bdates bcloses (some td) 180).1 with
          | some a, some b => some (a - b)
          | _, _ => none } := by
  simp only [computeSide] at h
  by_cases htd : td = ""
  · rw [if_pos htd] at h; cases h
  · rw [if_neg htd] at h
    by_cases hp : p0v ≤ 0
    · rw [if_pos hp] at h; cases h
    · rw [if_neg hp] at h
      cases ha : findAnchorIndex dates (some td) with
      | none => rw [ha] at h; cases h
      | some i =>
        rw [ha] at h
        refine ⟨htd, not_le.mp hp, i, rfl, ?_⟩
        exact (SideOutcome.computed.inj h).symm

/-- C4: on the computed path `p0` is positive; the forward return at each
horizon `H ∈ {60, 180}` is `p/p0 - 1` on the buy side and `(p0 - p)/p0` on
the sell side (with `p` the close `H` trading days after the anchor), else
the `insufficient_future_data` reason is recorded; the benchmark return uses
the same sign convention at the benchmark's own anchor; and the excess
return is trade minus benchmark exactly when both are present, null
otherwise. -/
theorem outcome_returns_spec (side : String) (td : String) (p0v : ℚ)
    (dates : List String) (closes : List ℚ) (bdates : List String)
    (bcloses : List ℚ) (rec : OutcomeRec) (i : Nat)
    (hside : side = "buy" ∨ side = "sell")
    (h : computeSide side (some td) (some p0v) dates closes bdates bcloses =
      .computed rec)
    (hi : findAnchorIndex dates (some td) = some i) :
    0 < p0v ∧
    (i + 60 < dates.length →
      rec.return_60d = some (if side = "buy"
        then closes.getD (i + 60) 0 / p0v - 1
        else (p0v - closes.getD (i + 60) 0) / p0v)) ∧
    (¬ i + 60 < dates.length →
      rec.return_60d = none ∧
      rec.missing_reason_60d = some "insufficient_future_data") ∧
    (i + 180 < dates.length →
      rec.return_180d = some (if side = "buy"
        then closes.getD (i + 180) 0 / p0v - 1
        else (p0v - closes.getD (i + 180) 0) / p0v)) ∧
    (¬ i + 180 < dates.length →
      rec.return_180d = none ∧
      rec.missing_reason_180d = some "insufficient_future_data") ∧
    (∀ bi, findAnchorIndex bdates (some td) = some bi →
      0 < bcloses.getD bi 0 →
      (bi + 60 < bdates.length →
        rec.bench_return_60d = some (if side = "buy"
          then bcloses.getD (bi + 60) 0 / bcloses.getD bi 0 - 1
          else (bcloses.getD bi 0 - bcloses.getD (bi + 60) 0) / bcloses.getD bi 0)) ∧
      (bi + 180 < bdates.length →
        rec.bench_return_180d = some (if side = "buy"
          then bcloses.getD (bi + 180) 0 / bcloses.getD bi 0 - 1
          else (bcloses.getD bi 0 - bcloses.getD (bi + 180) 0) / bcloses.getD bi 0))) ∧
    (∀ a b, rec.return_60d = some a → rec.bench_return_60d = some b →
      rec.excess_return_60d = some (a - b)) ∧
    ((rec.return_60d = none ∨ rec.bench_return_60d = none) →
      rec.excess_return_60d = none) ∧
    (∀ a b, rec.return_180d = some a → rec.bench_return_180d = some b →
      rec.excess_return_180d = some (a - b)) ∧
    ((rec.return_180d = none ∨ rec.bench_return_180d = none) →
      rec.excess_return_180d = none) := by
  obtain ⟨htd, hp, i0, hi0, hrec⟩ :=
    computeSide_computed side td p0v dates closes bdates bcloses rec h
  rw [hi0] at hi
  have hii := Option.some.inj hi
  subst hii
  subst hrec
  have hbne : ∀ bi, findAnchorIndex bdates (some td) = some bi →
      bdates.isEmpty = false := by
    intro bi hbi
    cases bdates with
    | nil =>
      simp only [findAnchorIndex, if_neg htd] at hbi
      simp [List.findIdx?] at hbi
    | cons d ds => rfl
  refine ⟨hp, ?_, ?_, ?_, ?_, ?_, ?_, ?_, ?_, ?_⟩
  · intro hlen
    simp [horizonOut, hlen]
  · intro hlen
    simp [horizonOut, hlen]
  · intro hlen
    simp [horizonOut, hlen]
  · intro hlen
    simp [horizonOut, hlen]
  · intro bi hbi hb0
    have hne := hbne bi hbi
    constructor
    · intro hlen
      simp only [benchHorizon, hne, Bool.false_eq_true, if_false, hbi]
      rw [if_neg (not_le.mpr hb0), if_pos hlen]
      simp [benchReturn]
    · intro hlen
      simp only [benchHorizon, hne, Bool.false_eq_true, if_false, hbi]
      rw [if_neg (not_le.mpr hb0), if_pos hlen]
      simp [benchReturn]
  · intro a b ha hb
    simp only [] at ha hb
    simp [ha, hb]
  · intro hno
    rcases hno with hno | hno
    · simp only [] at hno
      simp [hno]
    · simp only [] at hno
      cases hr : (horizonOut side p0v dates closes i0 60).ret with
      | none => simp [hr]
      | some a => simp [hr, hno]
  · intro a b ha hb
    simp only [] at ha hb
    simp [ha, hb]
  · intro hno
    rcases hno with hno | hno
    · simp only [] at hno
      simp [hno]
    · simp only [] at hno
      cases hr : (horizonOut side p0v dates closes i0 180).ret with
      | none => simp [hr]
      | some a => simp [hr, hno]

/-- Concrete outcome row for the C4 witness: a one-day series, so both
horizons lack future data and both benchmark horizons are insufficient. -/
def c4rec : OutcomeRec :=
  { anchor_trading_date := "d1"
    p0 := 1
    future_date_60d := none
    future_price_60d := none
    return_60d := none
    missing_reason_60d := some "insufficient_future_data"
    bench_return_60d := none
    bench_missing_reason_60d := some "insufficient_benchmark_future_data"
    excess_return_60d := none
    future_date_180d := none
    future_price_180d := none
    return_180d := none
    missing_reason_180d := some "insufficient_future_data"
    bench_return_180d := none
    bench_missing_reason_180d := some "insufficient_benchmark_future_data"
    excess_return_180d := none }

/-- Witness for C4 on a one-day price series. -/
theorem outcome_returns_spec_witness :
    (0 : ℚ) < 1 ∧
    c4rec.return_60d = none ∧
    c4rec.missing_reason_60d = some "insufficient_future_data" ∧
    c4rec.excess_return_60d = none := by
  have h := outcome_returns_spec "buy" "d1" 1 ["d1"] [1] ["d1"] [1] c4rec 0
    (Or.inl rfl) (by decide) (by decide)
  have h1 := h.2.2.1 (by norm_num)
  exact ⟨h.1, h1.1, h1.2, h.2.2.2.2.2.2.2.1 (Or.inl h1.1)⟩

/-- Counterexample for C7 as stated: with the benchmark series missing, the
outcomes self-heal enqueues its job under dedupe key `BENCH|SPY.US`, which is
not the `BENCH_PRICES|SPY.US` key the claim names. -/
theorem bench_selfheal_dedupe_counterexample :
    (benchSelfHealJobs ([] : List (String × ℚ)) "SPY.US").map JobRequest.dedupe_key =
      ["BENCH|SPY.US"] ∧
    ("BENCH|SPY.US" : String) ≠ "BENCH_PRICES|SPY.US" := by
  constructor
  · rfl
  · decide

/-- C7 (amended): whenever the outcomes engine finds the benchmark price
series missing it enqueues exactly one `FETCH_BENCHMARK_PRICES` job, whose
dedupe key is `BENCH|<symbol>` for the resolved benchmark symbol (priority
120); when the series is present, no job is enqueued. -/
theorem bench_selfheal_spec (series : List (String × ℚ)) (sym : String) :
    (series.isEmpty = true →
      benchSelfHealJobs series sym =
        [{ job_type := "FETCH_BENCHMARK_PRICES"
           dedupe_key := "BENCH|" ++ sym
           priority := 120 }] ∧
      (benchSelfHealJobs series sym).length = 1) ∧
    (series.isEmpty = false → benchSelfHealJobs series sym = []) := by
  unfold benchSelfHealJobs
  constructor <;> intro h <;> simp [h]

/-- Witness for C7 at the empty series and symbol `SPY.US`. -/
theorem bench_selfheal_spec_witness :
    benchSelfHealJobs ([] : List (String × ℚ)) "SPY.US" =
      [{ job_type := "FETCH_BENCHMARK_PRICES"
         dedupe_key := "BENCH|" ++ "SPY.US"
         priority := 120 }] ∧
    (benchSelfHealJobs ([] : List (String × ℚ)) "SPY.US").length = 1 :=
  (bench_selfheal_spec [] "SPY.US").1 rfl

/-! ## AI output schema (`insider_platform/ai/schema.py`) -/

/-- JSON values.  Python ints and floats both appear as `num` (a JSON int is
a `num` whose denominator is 1); JSON `null` (Python `None`) is `null`. -/
inductive Json where
  | null
  | bool (b : Bool)
  | num (q : ℚ)
  | str (s : String)
  | arr (xs : List Json)
  | obj (fields : List (String × Json))

/-- Python `x is None` on an optional JSON value: the key is present and
holds JSON null. -/
def isNullValue : Option Json → Bool
  | some .null => true
  | _ => false

/-- Python `dict.get(k)` on a JSON object (`None` when the key is absent). -/
def jlookup (fields : List (String × Json)) (k : String) : Option Json :=
  (fields.find? (fun p => p.1 == k)).map (fun p => p.2)

/-- The `_one_decimal` check `round(x, 1) == x`: in exact arithmetic, `x` is
a multiple of 1/10, i.e. `10 x` is an integer. -/
def oneDecimalB (q : ℚ) : Bool := (q * 10).den == 1

/-- The `isinstance(x, int)` check on a JSON number: integral value. -/
def jsonIntB (q : ℚ) : Bool := q.den == 1

/-- The required keys of a signal object. -/
def signalKeys : List String := ["status", "rating", "confidence", "horizon_days", "summary"]

/-- Embedding of `_validate_signal(sig, expected_applicable)` as acceptance:
all five keys present; `status` one of the three allowed strings;
`not_applicable` forced when the side is not expected applicable; all four
signal fields null unless `status = "applicable"`; and for an applicable
signal a rating in [1, 10] with one decimal, a confidence in [0, 1], a
horizon of 60 or 180, and a non-empty summary string. -/
def validateSignal (sig : List (String × Json)) (expected_applicable : Bool) : Bool :=
  (signalKeys.all (fun k => (jlookup sig k).isSome)) &&
  (match jlookup sig "status" with
   | some (.str status) =>
     (status == "applicable" || status == "not_applicable" ||
       status == "insufficient_data") &&
     (expected_applicable || status == "not_applicable") &&
     (if status != "applicable" then
        isNullValue (jlookup sig "rating") &&
        isNullValue (jlookup sig "confidence") &&
        isNullValue (jlookup sig "horizon_days") &&
        isNullValue (jlookup sig "summary")
      else
        (match jlookup sig "rating" with
         | some (.num r) => decide (1 ≤ r) && decide (r ≤ 10) && oneDecimalB r
         | _ => false) &&
        (match jlookup sig "confidence" with
         | some (.num c) => decide (0 ≤ c) && decide (c ≤ 1)
         | _ => false) &&
        (match jlookup sig "horizon_days" with
         | some (.num hz) => jsonIntB hz && (decide (hz = 60) || decide (hz = 180))
         | _ => false) &&
        (match jlookup sig "summary" with
         | some (.str s) => !(s == "")
         | _ => false))
   | _ => false)

/-- The side-applicability fragment of `validate_ai_output`: the buy signal
is validated against the input's `has_buy`, the sell signal against
`has_sell` (`validate_ai_output` raises unless both pass, among its other
checks). -/
def validateVerdictSides (hasBuy hasSell : Bool)
    (buySig sellSig : List (String × Json)) : Bool :=
  validateSignal buySig hasBuy && validateSignal sellSig hasSell

/-- What acceptance guarantees for one signal, in the spec's words. -/
def SignalOk (sig : List (String × Json)) (expected_applicable : Bool) : Prop :=
  (expected_applicable = false →
    jlookup sig "status" = some (.str "not_applicable") ∧
    jlookup sig "rating" = some .null ∧
    jlookup sig "confidence" = some .null ∧
    jlookup sig "horizon_days" = some .null ∧
    jlookup sig "summary" = some .null) ∧
  (jlookup sig "status" = some (.str "applicable") →
    (∃ r : ℚ, jlookup sig "rating" = some (.num r) ∧ 1 ≤ r ∧ r ≤ 10 ∧
      ∃ k : ℤ, r = (k : ℚ) / 10) ∧
    (∃ c : ℚ, jlookup sig "confidence" = some (.num c) ∧ 0 ≤ c ∧ c ≤ 1) ∧
    (∃ hz : ℚ, jlookup sig "horizon_days" = some (.num hz) ∧
      (hz = 60 ∨ hz = 180)) ∧
    (∃ s : String, jlookup sig "summary" = some (.str s) ∧ s ≠ ""))

theorem isNullValue_eq (o : Option Json) (h : isNullValue o = true) :
    o = some Json.null := by
  cases o with
  | none => simp [isNullValue] at h
  | some j => cases j <;> simp [isNullValue] at h ⊢

theorem validateSignal_ok (sig : List (String × Json)) (expected : Bool)
    (h : validateSignal sig expected = true) : SignalOk sig expected := by
  unfold validateSignal at h
  rw [Bool.and_eq_true] at h
  obtain ⟨-, h⟩ := h
  cases hst : jlookup sig "status" with
  | none => rw [hst] at h; simp at h
  | some j =>
    rw [hst] at h
    cases j with
    | null => simp at h
    | bool b => simp at h
    | num q => simp at h
    | arr xs => simp at h
    | obj fs => simp at h
    | str status =>
      rw [Bool.and_eq_true, Bool.and_eq_true] at h
      obtain ⟨⟨-, hexp⟩, hbody⟩ := h
      constructor
      · intro hexpf
        subst hexpf
        have hna : status = "not_applicable" := by
          simpa using hexp
        subst hna
        rw [if_pos (by decide)] at hbody
        rw [Bool.and_eq_true, Bool.and_eq_true, Bool.and_eq_true] at hbody
        obtain ⟨⟨⟨h1, h2⟩, h3⟩, h4⟩ := hbody
        exact ⟨hst, isNullValue_eq _ h1, isNullValue_eq _ h2,
          isNullValue_eq _ h3, isNullValue_eq _ h4⟩
      · intro happ
        rw [hst] at happ
        have hs2 := Option.some.inj happ
        have hseq : status = "applicable" := by
          cases hs2; rfl
        subst hseq
        rw [if_neg (by decide)] at hbody
        rw [Bool.and_eq_true, Bool.and_eq_true, Bool.and_eq_true] at hbody
        obtain ⟨⟨⟨h1, h2⟩, h3⟩, h4⟩ := hbody
        refine ⟨?_, ?_, ?_, ?_⟩
        · cases hr : jlookup sig "rating" with
          | none => rw [hr] at h1; simp at h1
          | some j =>
            rw [hr] at h1
            cases j with
            | num r =>
              rw [Bool.and_eq_true, Bool.and_eq_true] at h1
              obtain ⟨⟨hr1, hr2⟩, hr3⟩ := h1
              refine ⟨r, rfl, by simpa using hr1, by simpa using hr2, ?_⟩
              have hden : (r * 10).den = 1 := by simpa [oneDecimalB] using hr3
              have hnum : ((r * 10).num : ℚ) = r * 10 :=
                (Rat.den_eq_one_iff _).mp hden
              exact ⟨(r * 10).num, by rw [eq_div_iff (by norm_num : (10 : ℚ) ≠ 0)]
                                      exact hnum.symm⟩
            | null => simp at h1
            | bool b => simp at h1
            | str s => simp at h1
            | arr xs => simp at h1
            | obj fs => simp at h1
        · cases hc : jlookup sig "confidence" with
          | none => rw [hc] at h2; simp at h2
          | some j =>
            rw [hc] at h2
            cases j with
            | num c =>
              rw [Bool.and_eq_true] at h2
              exact ⟨c, rfl, by simpa using h2.1, by simpa using h2.2⟩
            | null => simp at h2
            | bool b => simp at h2
            | str s => simp at h2
            | arr xs => simp at h2
            | obj fs => simp at h2
        · cases hh : jlookup sig "horizon_days" with
          | none => rw [hh] at h3; simp at h3
          | some j =>
            rw [hh] at h3
            cases j with
            | num hz =>
              rw [Bool.and_eq_true] at h3
              refine ⟨hz, rfl, ?_⟩
              rcases Bool.or_eq_true_iff.mp h3.2 with hx | hx
              · exact Or.inl (by simpa using hx)
              · exact Or.inr (by simpa using hx)
            | null => simp at h3
            | bool b => simp at h3
            | str s => simp at h3
            | arr xs => simp at h3
            | obj fs => simp at h3
        · cases hsum : jlookup sig "summary" with
          | none => rw [hsum] at h4; simp at h4
          | some j =>
            rw [hsum] at h4
            cases j with
            | str s => exact ⟨s, rfl, by simpa using h4⟩
            | null => simp at h4
            | bool b => simp at h4
            | num q => simp at h4
            | arr xs => simp at h4
            | obj fs => simp at h4

/-- C8: every (output, input) pair accepted by the validator satisfies, per
side: an inapplicable side has status `not_applicable` and null rating,
confidence, horizon and summary; an applicable side has a rating in
[1.0, 10.0] that is an integer number of tenths, a confidence in [0, 1], a
horizon of 60 or 180, and a non-empty summary.  Outputs violating these fail
the Boolean check, i.e. are rejected. -/
theorem ai_signal_validation_spec (hasBuy hasSell : Bool)
    (buySig sellSig : List (String × Json))
    (h : validateVerdictSides hasBuy hasSell buySig sellSig = true) :
    SignalOk buySig hasBuy ∧ SignalOk sellSig hasSell := by
  rw [validateVerdictSides, Bool.and_eq_true] at h
  exact ⟨validateSignal_ok _ _ h.1, validateSignal_ok _ _ h.2⟩

/-- A valid not-applicable buy signal. -/
def c8buySig : List (String × Json) :=
  [("status", .str "not_applicable"), ("rating", .null), ("confidence", .null),
   ("horizon_days", .null), ("summary", .null)]

/-- A valid applicable sell signal: rating 7.0, confidence 1/2, horizon 60. -/
def c8sellSig : List (String × Json) :=
  [("status", .str "applicable"), ("rating", .num 7), ("confidence", .num (1/2)),
   ("horizon_days", .num 60), ("summary", .str "ok")]

/-- Witness for C8: an event with `has_buy = false`, `has_sell = true` and a
well-formed verdict passes both side validations. -/
theorem ai_signal_validation_spec_witness :
    SignalOk c8buySig false ∧ SignalOk c8sellSig true := by
  refine ai_signal_validation_spec false true c8buySig c8sellSig ?_
  have h70 : (7 : ℚ) * 10 = 70 := by norm_num
  have h60 : ((60 : ℚ)).den = 1 := rfl
  simp [validateVerdictSides, validateSignal, signalKeys, jlookup, oneDecimalB,
    jsonIntB, isNullValue, c8buySig, c8sellSig, h70, h60]
  norm_num

/-! ## AI dedupe hash (`insider_platform/ai/judge.py`) -/

/-- Python `dict.pop(k, None)`: remove the key (dict keys are unique, so
filtering all occurrences coincides). -/
def popKey (fs : List (String × Json)) (k : String) : List (String × Json) :=
  fs.filter (fun p => !(p.1 == k))

/-- The `dq["market_cap_staleness_days"] = None` step of
`_canonicalize_ai_input_for_hash`: when the value is a dict containing the
key, set that key to null; otherwise leave the value unchanged. -/
def setMcsdNull : Json → Json
  | .obj dfs =>
    if dfs.any (fun p => p.1 == "market_cap_staleness_days") then
      .obj (dfs.map (fun p =>
        if p.1 == "market_cap_staleness_days" then (p.1, Json.null) else p))
    else .obj dfs
  | j => j

/-- Embedding of `_canonicalize_ai_input_for_hash`: drop the top-level
`asof_utc` key and null out `data_quality.market_cap_staleness_days`. -/
def canonicalizeAiInputForHash : Json → Json
  | .obj fs =>
    .obj ((popKey fs "asof_utc").map (fun p =>
      if p.1 == "data_quality" then (p.1, setMcsdNull p.2) else p))
  | j => j

/-- Removal (not nulling) of `market_cap_staleness_days` from a dict value. -/
def dropMcsd : Json → Json
  | .obj dfs => .obj (dfs.filter (fun p => !(p.1 == "market_cap_staleness_days")))
  | j => j

/-- Modelled from the spec: a canonicalization that *strips* (removes) both
volatile fields — `asof_utc` and `data_quality.market_cap_staleness_days` —
as the claim's words describe, for comparison with the source's
`_canonicalize_ai_input_for_hash`. -/
def stripVolatileSpec : Json → Json
  | .obj fs =>
    .obj ((popKey fs "asof_utc").map (fun p =>
      if p.1 == "data_quality" then (p.1, dropMcsd p.2) else p))
  | j => j

/-- Key-sorting normalization corresponding to
`json.dumps(..., sort_keys=True, separators=(",", ":"))`: the serialized
bytes are a function of this normal form. -/
def sortKeysJson : Json → Json
  | .null => .null
  | .bool b => .bool b
  | .num q => .num q
  | .str s => .str s
  | .arr xs => .arr (xs.attach.map (fun x => sortKeysJson x.1))
  | .obj fs => .obj (List.insertionSort (fun a b => strLe a.1 b.1 = true)
      (fs.attach.map (fun p => (p.1.1, sortKeysJson p.1.2))))
decreasing_by
  · have := List.sizeOf_lt_of_mem x.2
    simp at this ⊢
    omega
  · have := List.sizeOf_lt_of_mem p.2
    cases hp : p.1 with
    | mk k v =>
      rw [hp] at this
      simp at this ⊢
      omega

/-- Python `dict[k] = v` for a key that may or may not be present: replace
every entry with that key. -/
def updateKey (fs : List (String × Json)) (k : String) (v : Json) :
    List (String × Json) :=
  fs.map (fun p => if p.1 == k then (k, v) else p)

/-- The dedupe decision of `run_ai_for_event`: skip model generation iff not
forced and an `ai_outputs` row of this event already carries the same
`(inputs_hash, prompt_version)`. -/
def shouldSkipAi (force : Bool) (existing : List (String × String))
    (inputs_hash prompt_version : String) : Bool :=
  !force && existing.any (fun r => r.1 == inputs_hash && r.2 == prompt_version)

theorem updateKey_cons (p : String × Json) (rest : List (String × Json))
    (k : String) (m : Json) :
    updateKey (p :: rest) k m =
      (if (p.1 == k) = true then (k, m) else p) :: updateKey rest k m := rfl

theorem popKey_cons (p : String × Json) (rest : List (String × Json)) (k : String) :
    popKey (p :: rest) k =
      if (p.1 == k) = true then popKey rest k else p :: popKey rest k := by
  simp only [popKey, List.filter_cons]
  by_cases hb : (p.1 == k) = true <;> simp [hb]

theorem updateKey_any_key (d : List (String × Json)) (k : String) (m : Json) :
    (updateKey d k m).any (fun p => p.1 == k) = d.any (fun p => p.1 == k) := by
  induction d with
  | nil => rfl
  | cons p rest ih =>
    rw [updateKey_cons, List.any_cons, List.any_cons, ih]
    by_cases hb : (p.1 == k) = true
    · rw [if_pos hb, hb]
      simp
    · rw [if_neg hb]

theorem updateKey_id (d : List (String × Json)) (k : String) (m : Json)
    (h : d.any (fun p => p.1 == k) = false) : updateKey d k m = d := by
  induction d with
  | nil => rfl
  | cons p rest ih =>
    rw [List.any_cons, Bool.or_eq_false_iff] at h
    rw [updateKey_cons, if_neg (by rw [h.1]; exact Bool.false_ne_true), ih h.2]

theorem updateKey_map_null (d : List (String × Json)) (k : String) (m : Json) :
    (updateKey d k m).map (fun p => if (p.1 == k) = true then (p.1, Json.null) else p) =
    d.map (fun p => if (p.1 == k) = true then (p.1, Json.null) else p) := by
  induction d with
  | nil => rfl
  | cons p rest ih =>
    rw [updateKey_cons, List.map_cons, List.map_cons, ih]
    by_cases hb : (p.1 == k) = true
    · have hpk : p.1 = k := by simpa using hb
      rw [if_pos hb, if_pos hb]
      have hkk : ((k : String) == k) = true := by simp
      rw [if_pos hkk, hpk]
    · rw [if_neg hb]

theorem setMcsdNull_updateKey (d : List (String × Json)) (m1 m2 : Json) :
    setMcsdNull (.obj (updateKey d "market_cap_staleness_days" m1)) =
    setMcsdNull (.obj (updateKey d "market_cap_staleness_days" m2)) := by
  simp only [setMcsdNull, updateKey_any_key]
  by_cases hany : d.any (fun p => p.1 == "market_cap_staleness_days") = true
  · rw [if_pos hany, if_pos hany, updateKey_map_null, updateKey_map_null]
  · have hany' : d.any (fun p => p.1 == "market_cap_staleness_days") = false :=
      Bool.eq_false_iff.mpr hany
    rw [if_neg hany, if_neg hany, updateKey_id _ _ _ hany', updateKey_id _ _ _ hany']

theorem canonicalize_invariant (fs d : List (String × Json)) (a1 a2 m1 m2 : Json) :
    canonicalizeAiInputForHash (.obj (updateKey
      (updateKey fs "asof_utc" a1) "data_quality"
      (.obj (updateKey d "market_cap_staleness_days" m1)))) =
    canonicalizeAiInputForHash (.obj (updateKey
      (updateKey fs "asof_utc" a2) "data_quality"
      (.obj (updateKey d "market_cap_staleness_days" m2)))) := by
  simp only [canonicalizeAiInputForHash]
  congr 1
  induction fs with
  | nil => rfl
  | cons p rest ih =>
    by_cases ha : (p.1 == "asof_utc") = true
    · have h1 : p.1 = "asof_utc" := by simpa using ha
      rw [updateKey_cons, updateKey_cons, if_pos ha,
        updateKey_cons, updateKey_cons, if_pos ha]
      have hd : (("asof_utc" : String) == "data_quality") = false := by decide
      rw [if_neg (by rw [hd]; exact Bool.false_ne_true),
        if_neg (by rw [hd]; exact Bool.false_ne_true)]
      have hkk : (("asof_utc" : String) == "asof_utc") = true := by simp
      rw [popKey_cons, popKey_cons, if_pos hkk, if_pos hkk]
      exact ih
    · rw [updateKey_cons, updateKey_cons, if_neg ha,
        updateKey_cons, updateKey_cons, if_neg ha]
      by_cases hd : (p.1 == "data_quality") = true
      · have h2 : p.1 = "data_quality" := by simpa using hd
        rw [if_pos hd, if_pos hd]
        have hda : (("data_quality" : String) == "asof_utc") = false := by decide
        rw [popKey_cons, popKey_cons, if_neg (by rw [hda]; exact Bool.false_ne_true),
          if_neg (by rw [hda]; exact Bool.false_ne_true)]
        rw [List.map_cons, List.map_cons]
        have hdd : (("data_quality" : String) == "data_quality") = true := by simp
        rw [if_pos hdd, if_pos hdd, setMcsdNull_updateKey d m1 m2, ih]
      · rw [if_neg hd, if_neg hd]
        rw [popKey_cons, popKey_cons, if_neg ha, if_neg ha,
          List.map_cons, List.map_cons, if_neg hd, ih]

/-- Number of fields held by the `data_quality` value of an input object. -/
def dqFieldCount : Json → Nat
  | .obj fs =>
    match jlookup fs "data_quality" with
    | some (.obj dfs) => dfs.length
    | _ => 0
  | _ => 0

/-- A concrete assembled AI input: a volatile timestamp, a `data_quality`
dict carrying `market_cap_staleness_days`, and one stable field. -/
def c9input : Json :=
  .obj [("asof_utc", .str "2024-01-01T00:00:00Z"),
        ("data_quality", .obj [("market_cap_staleness_days", .num 3)]),
        ("event", .str "e")]

/-- Counterexample for C9 as stated: the source's canonicalization *nulls*
`data_quality.market_cap_staleness_days` (the key stays, with value null)
rather than stripping it, so the canonical object — and hence the hashed
serialization — differs from the claim's both-fields-stripped form. -/
theorem inputs_hash_strip_counterexample :
    canonicalizeAiInputForHash c9input ≠ stripVolatileSpec c9input ∧
    dqFieldCount (canonicalizeAiInputForHash c9input) = 1 ∧
    dqFieldCount (stripVolatileSpec c9input) = 0 := by
  refine ⟨?_, rfl, rfl⟩
  intro h
  have h2 := congrArg dqFieldCount h
  rw [show dqFieldCount (canonicalizeAiInputForHash c9input) = 1 from rfl] at h2
  rw [show dqFieldCount (stripVolatileSpec c9input) = 0 from rfl] at h2
  cases h2

/-- C9 (amended): the canonicalization removes `asof_utc` and nulls
`data_quality.market_cap_staleness_days`, so two assembled inputs differing
only in those volatile fields have identical canonical objects — hence
identical sorted-keys serializations and identical sha256 inputs-hashes —
and `run_ai_for_event` skips generation exactly when not forced and an
`ai_outputs` row of the event already matches `(inputs_hash,
prompt_version)`. -/
theorem ai_inputs_hash_spec (fs d : List (String × Json)) (a1 a2 m1 m2 : Json)
    (existing : List (String × String)) (ihash pv : String) :
    canonicalizeAiInputForHash (.obj (updateKey (updateKey fs "asof_utc" a1)
      "data_quality" (.obj (updateKey d "market_cap_staleness_days" m1)))) =
    canonicalizeAiInputForHash (.obj (updateKey (updateKey fs "asof_utc" a2)
      "data_quality" (.obj (updateKey d "market_cap_staleness_days" m2)))) ∧
    sortKeysJson (canonicalizeAiInputForHash (.obj (updateKey
      (updateKey fs "asof_utc" a1) "data_quality"
      (.obj (updateKey d "market_cap_staleness_days" m1))))) =
    sortKeysJson (canonicalizeAiInputForHash (.obj (updateKey
      (updateKey fs "asof_utc" a2) "data_quality"
      (.obj (updateKey d "market_cap_staleness_days" m2))))) ∧
    shouldSkipAi true existing ihash pv = false ∧
    (∀ row, row ∈ existing → row.1 = ihash → row.2 = pv →
      shouldSkipAi false existing ihash pv = true) ∧
    (shouldSkipAi false existing ihash pv = true →
      ∃ row, row ∈ existing ∧ row.1 = ihash ∧ row.2 = pv) := by
  refine ⟨canonicalize_invariant fs d a1 a2 m1 m2,
    congrArg sortKeysJson (canonicalize_invariant fs d a1 a2 m1 m2), rfl, ?_, ?_⟩
  · intro row hrow h1 h2
    simp only [shouldSkipAi, Bool.not_false, Bool.true_and, List.any_eq_true]
    exact ⟨row, hrow, by simp [h1, h2]⟩
  · intro h
    simp only [shouldSkipAi, Bool.not_false, Bool.true_and, List.any_eq_true] at h
    obtain ⟨row, hrow, hb⟩ := h
    rw [Bool.and_eq_true] at hb
    exact ⟨row, hrow, by simpa using hb.1, by simpa using hb.2⟩

/-- Stable part of the witness input for C9. -/
def c9fs : List (String × Json) :=
  [("asof_utc", .str "t0"),
   ("data_quality", .obj [("market_cap_staleness_days", .num 0)]),
   ("event", .str "e")]

/-- The `data_quality` dict of the witness input for C9. -/
def c9dq : List (String × Json) := [("market_cap_staleness_days", .num 0)]

/-- Witness for C9: two inputs differing only in `asof_utc` and
`market_cap_staleness_days` canonicalize identically, and a matching
`(inputs_hash, prompt_version)` row triggers the skip. -/
theorem ai_inputs_hash_spec_witness :
    canonicalizeAiInputForHash (.obj (updateKey (updateKey c9fs "asof_utc"
      (.str "t1")) "data_quality"
      (.obj (updateKey c9dq "market_cap_staleness_days" (.num 3))))) =
    canonicalizeAiInputForHash (.obj (updateKey (updateKey c9fs "asof_utc"
      (.str "t2")) "data_quality"
      (.obj (updateKey c9dq "market_cap_staleness_days" (.num 4))))) ∧
    shouldSkipAi false [("h1", "p1")] "h1" "p1" = true := by
  have h := ai_inputs_hash_spec c9fs c9dq (.str "t1") (.str "t2") (.num 3)
    (.num 4) [("h1", "p1")] "h1" "p1"
  exact ⟨h.1, h.2.2.2.1 ("h1", "p1") (by simp) rfl rfl⟩

/-! ## Clusters (`insider_platform/compute/clusters.py`) -/

/-- One clustering candidate (`_load_candidates` row).  The trade date is
modelled as an integer day number: ISO date strings order and offset exactly
as their day numbers do. -/
structure Candidate where
  issuer_cik : String
  owner_key : String
  accession_number : String
  trade_date : Int
  dollars : ℚ
  is_exec : Bool
  pct_change : Option ℚ

/-- A `clusters` table row together with its `cluster_members`. -/
structure Cluster where
  window_start : Int
  window_end : Int
  unique_insiders : Nat
  total_dollars : ℚ
  execs_involved : Bool
  max_pct_holdings_change : Option ℚ
  members : List Candidate

/-- Event identity of a candidate. -/
def evKey (c : Candidate) : String × String × String :=
  (c.issuer_cik, c.owner_key, c.accession_number)

/-- Python `dict`/`set` insertion-order collection of distinct keys. -/
def insertDistinct (acc : List String) (a : String) : List String :=
  if a ∈ acc then acc else acc ++ [a]

/-- Distinct keys of a list in first-occurrence order (`set`/dict keys). -/
def distinctKeys (l : List String) : List String :=
  l.foldl insertDistinct []

/-- The `dollars_by_filing[acc]` value: starting from the 0.0 default, the
running max of the dollars of members filed under accession `a`. -/
def accMaxDollars (ms : List Candidate) (a : String) : ℚ :=
  ms.foldl (fun cur c => if c.accession_number = a then max cur c.dollars else cur) 0

/-- Number of subsequent candidates inside the anchor's 14-day window (the
inner `while dates[j] <= window_end_dt` scan). -/
def windowLen (c : Candidate) (rest : List (Candidate × Bool)) : Nat :=
  (rest.takeWhile (fun p => p.1.trade_date ≤ c.trade_date + 14)).length

/-- The cluster members collected for anchor `c`: the anchor plus the
unassigned candidates inside its window. -/
def windowMembers (c : Candidate) (rest : List (Candidate × Bool)) : List Candidate :=
  c :: ((rest.take (windowLen c rest)).filter (fun p => !p.2)).map (fun p => p.1)

/-- The cluster record assembled for anchor `c` (window bounds, distinct
filings, per-filing max dollars summed, exec flag, max pct change). -/
def mkCluster (c : Candidate) (rest : List (Candidate × Bool)) : Cluster :=
  let members := windowMembers c rest
  let filings := distinctKeys (members.map (fun m => m.accession_number))
  { window_start := c.trade_date
    window_end := (listMax? (members.map (fun m => m.trade_date))).getD c.trade_date
    unique_insiders := filings.length
    total_dollars := (filings.map (accMaxDollars members)).sum
    execs_involved := members.any (fun m => m.is_exec)
    max_pct_holdings_change := listMax? (members.filterMap (fun m => m.pct_change))
    members := members }

/-- Marking the window's candidates assigned (`assigned[k] = True`). -/
def markWindow (c : Candidate) (rest : List (Candidate × Bool)) :
    List (Candidate × Bool) :=
  ((rest.take (windowLen c rest)).map (fun p => (p.1, true))) ++
    rest.drop (windowLen c rest)

theorem markWindow_length (c : Candidate) (rest : List (Candidate × Bool)) :
    (markWindow c rest).length = rest.length := by
  have h := (List.takeWhile_sublist (l := rest)
    (fun p : Candidate × Bool => decide (p.1.trade_date ≤ c.trade_date + 14))).length_le
  simp only [markWindow, windowLen, List.length_append, List.length_map,
    List.length_take, List.length_drop]
  omega

/-- The sweep of `_compute_side_clusters` over date-sorted candidates paired
with their `assigned` flags.  An unassigned anchor `c` opens the window
`[c.trade_date, c.trade_date + 14]`; the unassigned candidates in the window
form a cluster when they span at least two accession numbers, and are then
marked assigned; in every case the anchor index advances by one. -/
def sweep : List (Candidate × Bool) → List Cluster
  | [] => []
  | (c, a) :: rest =>
    if a then sweep rest
    else if (distinctKeys ((windowMembers c rest).map
        (fun m => m.accession_number))).length < 2 then
      sweep rest
    else mkCluster c rest :: sweep (markWindow c rest)
termination_by l => l.length
decreasing_by
  all_goals simp only [markWindow_length, List.length_cons]
  all_goals omega

/-- Embedding of `_compute_side_clusters` after candidate loading: fewer than
two candidates produce no clusters; otherwise the date-sorted candidates are
swept with all `assigned` flags initially false. -/
def computeSideClusters (candidates : List Candidate) : List Cluster :=
  if candidates.length < 2 then []
  else sweep ((List.insertionSort
    (fun a b => a.trade_date ≤ b.trade_date) candidates).map (fun c => (c, false)))

theorem take_length_takeWhile {α : Type} (l : List α) (q : α → Bool) :
    l.take (l.takeWhile q).length = l.takeWhile q := by
  induction l with
  | nil => rfl
  | cons x xs ih =>
    by_cases hx : q x = true
    · simp [List.takeWhile_cons, hx, List.take_succ_cons, ih]
    · simp [List.takeWhile_cons, hx]

theorem listMax?_spec {α : Type} [LinearOrder α] (x : α) (l : List α) :
    ∃ m, listMax? (x :: l) = some m ∧ (m = x ∨ m ∈ l) ∧ x ≤ m ∧ ∀ y ∈ l, y ≤ m := by
  suffices haux : ∀ (l : List α) (cur : α),
      ∃ m, l.foldl (fun acc s =>
        match acc with
        | none => some s
        | some t => some (max t s)) (some cur) = some m ∧
        (m = cur ∨ m ∈ l) ∧ cur ≤ m ∧ ∀ y ∈ l, y ≤ m by
    obtain ⟨m, h1, h2, h3, h4⟩ := haux l x
    exact ⟨m, h1, h2, h3, h4⟩
  intro l
  induction l with
  | nil => exact fun cur => ⟨cur, rfl, Or.inl rfl, le_refl _, by simp⟩
  | cons y ys ih =>
    intro cur
    obtain ⟨m, h1, h2, h3, h4⟩ := ih (max cur y)
    refine ⟨m, h1, ?_, le_trans (le_max_left _ _) h3, ?_⟩
    · rcases h2 with h2 | h2
      · rcases max_choice cur y with hm | hm
        · exact Or.inl (h2.trans hm)
        · exact Or.inr (by simp [h2, hm])
      · exact Or.inr (List.mem_cons_of_mem _ h2)
    · intro z hz
      rcases List.mem_cons.mp hz with hz | hz
      · exact hz ▸ le_trans (le_max_right _ _) h3
      · exact h4 z hz

theorem insertDistinct_carries (acc : List String) (l : List String) :
    ∀ a, a ∈ l.foldl insertDistinct acc ↔ a ∈ acc ∨ a ∈ l := by
  induction l generalizing acc with
  | nil => simp
  | cons b rest ih =>
    intro a
    rw [List.foldl_cons, ih]
    unfold insertDistinct
    by_cases hb : b ∈ acc
    · rw [if_pos hb]
      constructor
      · rintro (h | h)
        · exact Or.inl h
        · exact Or.inr (List.mem_cons_of_mem _ h)
      · rintro (h | h)
        · exact Or.inl h
        · rcases List.mem_cons.mp h with h | h
          · exact Or.inl (h ▸ hb)
          · exact Or.inr h
    · rw [if_neg hb]
      constructor
      · rintro (h | h)
        · rcases List.mem_append.mp h with h | h
          · exact Or.inl h
          · exact Or.inr (by simp at h; simp [h])
        · exact Or.inr (List.mem_cons_of_mem _ h)
      · rintro (h | h)
        · exact Or.inl (List.mem_append.mpr (Or.inl h))
        · rcases List.mem_cons.mp h with h | h
          · exact Or.inl (List.mem_append.mpr (Or.inr (by simp [h])))
          · exact Or.inr h

theorem mem_distinctKeys (l : List String) (a : String) :
    a ∈ distinctKeys l ↔ a ∈ l := by
  unfold distinctKeys
  rw [insertDistinct_carries]
  simp

theorem foldl_insertDistinct_nodup (l : List String) (acc : List String)
    (h : acc.Nodup) : (l.foldl insertDistinct acc).Nodup := by
  induction l generalizing acc with
  | nil => exact h
  | cons b rest ih =>
    rw [List.foldl_cons]
    apply ih
    unfold insertDistinct
    by_cases hb : b ∈ acc
    · rw [if_pos hb]; exact h
    · rw [if_neg hb]
      exact List.Nodup.append h (List.nodup_singleton b)
        (by simpa [List.disjoint_singleton] using hb)

theorem distinctKeys_nodup (l : List String) : (distinctKeys l).Nodup :=
  foldl_insertDistinct_nodup l [] List.nodup_nil

theorem distinctKeys_toFinset_card (l : List String) :
    (distinctKeys l).length = l.toFinset.card := by
  have hset : (distinctKeys l).toFinset = l.toFinset := by
    apply Finset.ext
    intro a
    simp [List.mem_toFinset, mem_distinctKeys]
  rw [← hset]
  exact (List.toFinset_card_of_nodup (distinctKeys_nodup l)).symm

theorem accMaxDollars_fold (a : String) (ms : List Candidate) :
    ∀ cur : ℚ,
      ms.foldl (fun cur c => if c.accession_number = a then max cur c.dollars else cur) cur =
      ((ms.filter (fun m => m.accession_number = a)).map (fun m => m.dollars)).foldl max cur := by
  induction ms with
  | nil => intro cur; rfl
  | cons m rest ih =>
    intro cur
    by_cases hm : m.accession_number = a
    · simp only [List.foldl_cons, if_pos hm, List.filter_cons,
        decide_eq_true_eq, hm, if_true, List.map_cons]
      exact ih (max cur m.dollars)
    · simp only [List.foldl_cons, if_neg hm, List.filter_cons,
        decide_eq_true_eq, hm, if_false]
      exact ih cur

theorem foldl_max_le {α : Type} [LinearOrder α] (B : α) :
    ∀ (l : List α) (cur : α), cur ≤ B → (∀ y ∈ l, y ≤ B) → l.foldl max cur ≤ B := by
  intro l
  induction l with
  | nil => intro cur hc _; exact hc
  | cons x xs ih =>
    intro cur hc h
    rw [List.foldl_cons]
    exact ih (max cur x) (max_le hc (h x (by simp))) (fun y hy => h y (by simp [hy]))

theorem le_foldl_max {α : Type} [LinearOrder α] :
    ∀ (l : List α) (cur : α), cur ≤ l.foldl max cur ∧ ∀ y ∈ l, y ≤ l.foldl max cur := by
  intro l
  induction l with
  | nil => intro cur; exact ⟨le_refl _, by simp⟩
  | cons x xs ih =>
    intro cur
    rw [List.foldl_cons]
    obtain ⟨h1, h2⟩ := ih (max cur x)
    refine ⟨le_trans (le_max_left _ _) h1, ?_⟩
    intro y hy
    rcases List.mem_cons.mp hy with hy | hy
    · subst hy
      exact le_trans (le_max_right _ _) h1
    · exact h2 y hy

theorem accMaxDollars_eq (ms : List Candidate) (a : String)
    (hnn : ∀ m ∈ ms, 0 ≤ m.dollars)
    (hmem : a ∈ ms.map (fun m => m.accession_number)) :
    accMaxDollars ms a =
      (listMax? ((ms.filter (fun m => m.accession_number = a)).map
        (fun m => m.dollars))).getD 0 := by
  obtain ⟨c, hc, hca⟩ := List.mem_map.mp hmem
  have hcf : c ∈ ms.filter (fun m => m.accession_number = a) :=
    List.mem_filter.mpr ⟨hc, by simp [hca]⟩
  have hcd : c.dollars ∈ (ms.filter (fun m => m.accession_number = a)).map
      (fun m => m.dollars) := List.mem_map.mpr ⟨c, hcf, rfl⟩
  obtain ⟨x, l2, hL⟩ := List.exists_cons_of_ne_nil (List.ne_nil_of_mem hcd)
  obtain ⟨mx, hmx, hmxmem, hmx1, hmx2⟩ := listMax?_spec x l2
  have hmxin : mx ∈ (ms.filter (fun m => m.accession_number = a)).map
      (fun m => m.dollars) := by
    rw [hL]
    rcases hmxmem with h | h
    · simp [h]
    · simp [h]
  have hmx0 : 0 ≤ mx := by
    obtain ⟨m2, hm2, hm2d⟩ := List.mem_map.mp hmxin
    exact hm2d ▸ hnn m2 (List.mem_filter.mp hm2).1
  have hub : ∀ y ∈ (ms.filter (fun m => m.accession_number = a)).map
      (fun m => m.dollars), y ≤ mx := by
    intro y hy
    rw [hL] at hy
    rcases List.mem_cons.mp hy with hy | hy
    · exact hy ▸ hmx1
    · exact hmx2 y hy
  rw [accMaxDollars, accMaxDollars_fold, hL, hmx]
  simp only [Option.getD_some]
  refine le_antisymm ?_ ?_
  · rw [← hL]
    exact foldl_max_le mx _ 0 hmx0 hub
  · have := (le_foldl_max (x :: l2) 0).2 mx (by rw [← hL]; exact hmxin)
    exact this

/-- The invariants claimed for one cluster row. -/
def ClusterProps (cl : Cluster) : Prop :=
  (∀ m ∈ cl.members, cl.window_start ≤ m.trade_date ∧ m.trade_date ≤ cl.window_end) ∧
  cl.window_end - cl.window_start ≤ 14 ∧
  2 ≤ cl.unique_insiders ∧
  cl.unique_insiders = (cl.members.map (fun m => m.accession_number)).toFinset.card ∧
  cl.total_dollars = ((distinctKeys (cl.members.map (fun m => m.accession_number))).map
    (fun a => (listMax? ((cl.members.filter (fun m => m.accession_number = a)).map
      (fun m => m.dollars))).getD 0)).sum

theorem windowMembers_sub (c : Candidate) (rest : List (Candidate × Bool)) :
    ∀ m ∈ windowMembers c rest,
      m = c ∨ ((∃ p ∈ rest, p.1 = m) ∧ m.trade_date ≤ c.trade_date + 14) := by
  intro m hm
  rcases List.mem_cons.mp hm with h | h
  · exact Or.inl h
  · obtain ⟨p, hp, hpm⟩ := List.mem_map.mp h
    have hp2 := List.mem_filter.mp hp
    have hpw : p ∈ rest.takeWhile
        (fun q => decide (q.1.trade_date ≤ c.trade_date + 14)) := by
      have := hp2.1
      rw [windowLen, take_length_takeWhile] at this
      exact this
    have hplt := List.mem_takeWhile_imp hpw
    refine Or.inr ⟨⟨p, (List.takeWhile_sublist _).subset hpw, hpm⟩, ?_⟩
    rw [← hpm]
    simpa using hplt

theorem mkCluster_props (c : Candidate) (rest : List (Candidate × Bool))
    (hsorthead : ∀ p ∈ rest, c.trade_date ≤ p.1.trade_date)
    (hnn : 0 ≤ c.dollars) (hnnrest : ∀ p ∈ rest, 0 ≤ p.1.dollars)
    (hbig : ¬ (distinctKeys ((windowMembers c rest).map
      (fun m => m.accession_number))).length < 2) :
    ClusterProps (mkCluster c rest) := by
  have hmem := windowMembers_sub c rest
  have hlow : ∀ m ∈ windowMembers c rest, c.trade_date ≤ m.trade_date := by
    intro m hm
    rcases hmem m hm with h | ⟨⟨p, hp, hpm⟩, -⟩
    · rw [h]
    · exact hpm ▸ hsorthead p hp
  have hhigh : ∀ m ∈ windowMembers c rest, m.trade_date ≤ c.trade_date + 14 := by
    intro m hm
    rcases hmem m hm with h | ⟨-, h⟩
    · rw [h]; omega
    · exact h
  have hmnn : ∀ m ∈ windowMembers c rest, 0 ≤ m.dollars := by
    intro m hm
    rcases hmem m hm with h | ⟨⟨p, hp, hpm⟩, -⟩
    · rw [h]; exact hnn
    · exact hpm ▸ hnnrest p hp
  obtain ⟨mx, hmx, hmxmem, hmx1, hmx2⟩ := listMax?_spec c.trade_date
    ((((rest.take (windowLen c rest)).filter (fun p => !p.2)).map
      (fun p => p.1)).map (fun m => m.trade_date))
  have hmapeq : (windowMembers c rest).map (fun m => m.trade_date) =
      c.trade_date :: (((rest.take (windowLen c rest)).filter
        (fun p => !p.2)).map (fun p => p.1)).map (fun m => m.trade_date) := rfl
  have hwend : (listMax? ((windowMembers c rest).map
      (fun m => m.trade_date))).getD c.trade_date = mx := by
    rw [hmapeq, hmx]
    rfl
  have hmxle : mx ≤ c.trade_date + 14 := by
    rcases hmxmem with h | h
    · omega
    · obtain ⟨m, hm, hmtd⟩ := List.mem_map.mp h
      have : m ∈ windowMembers c rest := List.mem_cons_of_mem _ hm
      exact hmtd ▸ hhigh m this
  refine ⟨?_, ?_, ?_, ?_, ?_⟩
  · intro m hm
    have hm2 : m ∈ windowMembers c rest := hm
    constructor
    · exact hlow m hm2
    · show m.trade_date ≤ (mkCluster c rest).window_end
      have : (mkCluster c rest).window_end = mx := hwend
      rw [this]
      rcases List.mem_cons.mp hm2 with h | h
      · rw [h]; exact hmx1
      · exact hmx2 m.trade_date (List.mem_map.mpr ⟨m, h, rfl⟩)
  · show (mkCluster c rest).window_end - (mkCluster c rest).window_start ≤ 14
    have h1 : (mkCluster c rest).window_end = mx := hwend
    have h2 : (mkCluster c rest).window_start = c.trade_date := rfl
    rw [h1, h2]
    omega
  · exact Nat.not_lt.mp hbig
  · show (distinctKeys ((windowMembers c rest).map (fun m => m.accession_number))).length =
      ((windowMembers c rest).map (fun m => m.accession_number)).toFinset.card
    exact distinctKeys_toFinset_card _
  · show ((distinctKeys ((windowMembers c rest).map (fun m => m.accession_number))).map
        (accMaxDollars (windowMembers c rest))).sum = _
    congr 1
    apply List.map_congr_left
    intro a ha
    exact accMaxDollars_eq (windowMembers c rest) a hmnn ((mem_distinctKeys _ a).mp ha)

theorem markWindow_map_fst (c : Candidate) (rest : List (Candidate × Bool)) :
    (markWindow c rest).map (fun p => p.1) = rest.map (fun p => p.1) := by
  unfold markWindow
  rw [List.map_append, List.map_map]
  have hcomp : ((fun p : Candidate × Bool => p.1) ∘
      fun p : Candidate × Bool => (p.1, true)) =
      fun p : Candidate × Bool => p.1 := rfl
  rw [hcomp, ← List.map_append, List.take_append_drop]

theorem pairwise_fst_markWindow (c : Candidate) (rest : List (Candidate × Bool))
    (R : Candidate → Candidate → Prop)
    (h : rest.Pairwise (fun p q => R p.1 q.1)) :
    (markWindow c rest).Pairwise (fun p q => R p.1 q.1) := by
  have h1 : (rest.map (fun p => p.1)).Pairwise R := (List.pairwise_map).mpr h
  rw [← markWindow_map_fst c rest] at h1
  exact (List.pairwise_map).mp h1

theorem markWindow_fst_mem (c : Candidate) (rest : List (Candidate × Bool))
    (p : Candidate × Bool) (hp : p ∈ markWindow c rest) :
    p.1 ∈ rest.map (fun q => q.1) := by
  have h : p.1 ∈ (markWindow c rest).map (fun q => q.1) :=
    List.mem_map.mpr ⟨p, hp, rfl⟩
  rw [markWindow_map_fst] at h
  exact h

theorem sweep_props : ∀ (n : Nat) (l : List (Candidate × Bool)), l.length ≤ n →
    l.Pairwise (fun p q => p.1.trade_date ≤ q.1.trade_date) →
    (∀ p ∈ l, 0 ≤ p.1.dollars) →
    ∀ cl ∈ sweep l, ClusterProps cl := by
  intro n
  induction n with
  | zero =>
    intro l hlen _ _ cl hcl
    have hnil : l = [] := List.eq_nil_of_length_eq_zero (Nat.le_zero.mp hlen)
    subst hnil
    simp only [sweep] at hcl
    simp at hcl
  | succ n ih =>
    intro l hlen hsort hnn cl hcl
    cases l with
    | nil =>
      simp only [sweep] at hcl
      simp at hcl
    | cons hd rest =>
      obtain ⟨c, a⟩ := hd
      have hlen2 : rest.length ≤ n := by
        simp only [List.length_cons] at hlen
        omega
      have hhead := (List.pairwise_cons.mp hsort).1
      have hsort2 := (List.pairwise_cons.mp hsort).2
      have hnn2 : ∀ p ∈ rest, 0 ≤ p.1.dollars :=
        fun p hp => hnn p (List.mem_cons_of_mem _ hp)
      by_cases ha : a = true
      · subst ha
        rw [show sweep ((c, true) :: rest) = sweep rest from by simp [sweep]] at hcl
        exact ih rest hlen2 hsort2 hnn2 cl hcl
      · have ha' : a = false := by simpa using ha
        subst ha'
        by_cases hsmall : (distinctKeys ((windowMembers c rest).map
            (fun m => m.accession_number))).length < 2
        · rw [show sweep ((c, false) :: rest) = sweep rest from by
            simp [sweep, hsmall]] at hcl
          exact ih rest hlen2 hsort2 hnn2 cl hcl
        · rw [show sweep ((c, false) :: rest) =
              mkCluster c rest :: sweep (markWindow c rest) from by
            simp [sweep, hsmall]] at hcl
          rcases List.mem_cons.mp hcl with h | h
          · rw [h]
            exact mkCluster_props c rest (fun p hp => hhead p hp)
              (hnn (c, false) (by simp)) hnn2 hsmall
          · refine ih (markWindow c rest) ?_ ?_ ?_ cl h
            · rw [markWindow_length]; exact hlen2
            · exact pairwise_fst_markWindow c rest
                (fun x y => x.trade_date ≤ y.trade_date) hsort2
            · intro p hp
              obtain ⟨q, hq, hqe⟩ := List.mem_map.mp (markWindow_fst_mem c rest p hp)
              exact hqe ▸ hnn2 q hq

/-- Event keys of a flagged candidate list. -/
def keysOf (l : List (Candidate × Bool)) : List (String × String × String) :=
  l.map (fun p => evKey p.1)

/-- Event keys of the still-unassigned candidates. -/
def unassignedKeys (l : List (Candidate × Bool)) : List (String × String × String) :=
  (l.filter (fun p => !p.2)).map (fun p => evKey p.1)

theorem keysOf_markWindow (c : Candidate) (rest : List (Candidate × Bool)) :
    keysOf (markWindow c rest) = keysOf rest := by
  unfold keysOf
  have h1 : (markWindow c rest).map (fun p => evKey p.1) =
      ((markWindow c rest).map (fun p => p.1)).map evKey := by
    rw [List.map_map]; rfl
  have h2 : rest.map (fun p => evKey p.1) =
      (rest.map (fun p => p.1)).map evKey := by
    rw [List.map_map]; rfl
  rw [h1, h2, markWindow_map_fst]

theorem unassignedKeys_markWindow_subset (c : Candidate)
    (rest : List (Candidate × Bool)) :
    ∀ x ∈ unassignedKeys (markWindow c rest),
      x ∈ unassignedKeys (rest.drop (windowLen c rest)) := by
  intro x hx
  unfold unassignedKeys markWindow at hx
  rw [List.filter_append] at hx
  have hmarked : ((rest.take (windowLen c rest)).map
      (fun p => (p.1, true))).filter (fun p => !p.2) = [] := by
    rw [List.filter_eq_nil_iff]
    intro p hp
    obtain ⟨q, -, hq⟩ := List.mem_map.mp hp
    rw [← hq]
    simp
  rw [hmarked, List.nil_append] at hx
  exact hx

theorem unassignedKeys_drop_subset (k : Nat) (rest : List (Candidate × Bool)) :
    ∀ x ∈ unassignedKeys (rest.drop k), x ∈ unassignedKeys rest := by
  intro x hx
  unfold unassignedKeys at hx ⊢
  obtain ⟨p, hp, hpe⟩ := List.mem_map.mp hx
  have hp2 := List.mem_filter.mp hp
  have hpr : p ∈ rest := (List.drop_subset k rest) hp2.1
  exact List.mem_map.mpr ⟨p, List.mem_filter.mpr ⟨hpr, hp2.2⟩, hpe⟩

theorem sweep_member_keys : ∀ (n : Nat) (l : List (Candidate × Bool)),
    l.length ≤ n →
    ∀ cl ∈ sweep l, ∀ m ∈ cl.members, evKey m ∈ unassignedKeys l := by
  intro n
  induction n with
  | zero =>
    intro l hlen cl hcl
    have hnil : l = [] := List.eq_nil_of_length_eq_zero (Nat.le_zero.mp hlen)
    subst hnil
    simp only [sweep] at hcl
    simp at hcl
  | succ n ih =>
    intro l hlen cl hcl
    cases l with
    | nil =>
      simp only [sweep] at hcl
      simp at hcl
    | cons hd rest =>
      obtain ⟨c, a⟩ := hd
      have hlen2 : rest.length ≤ n := by
        simp only [List.length_cons] at hlen
        omega
      by_cases ha : a = true
      · subst ha
        rw [show sweep ((c, true) :: rest) = sweep rest from by simp [sweep]] at hcl
        intro m hm
        have h := ih rest hlen2 cl hcl m hm
        unfold unassignedKeys at h ⊢
        rw [List.filter_cons]
        simp only [Bool.not_true, Bool.false_eq_true, if_false]
        exact h
      · have ha' : a = false := by simpa using ha
        subst ha'
        have hconskeys : unassignedKeys ((c, false) :: rest) =
            evKey c :: unassignedKeys rest := by
          unfold unassignedKeys
          rw [List.filter_cons]
          simp
        by_cases hsmall : (distinctKeys ((windowMembers c rest).map
            (fun m => m.accession_number))).length < 2
        · rw [show sweep ((c, false) :: rest) = sweep rest from by
            simp [sweep, hsmall]] at hcl
          intro m hm
          rw [hconskeys]
          exact List.mem_cons_of_mem _ (ih rest hlen2 cl hcl m hm)
        · rw [show sweep ((c, false) :: rest) =
              mkCluster c rest :: sweep (markWindow c rest) from by
            simp [sweep, hsmall]] at hcl
          intro m hm
          rw [hconskeys]
          rcases List.mem_cons.mp hcl with h | h
          · rw [h] at hm
            rcases List.mem_cons.mp hm with hmc | hmt
            · rw [hmc]
              exact List.mem_cons_self _ _
            · obtain ⟨p, hp, hpe⟩ := List.mem_map.mp hmt
              have hp2 := List.mem_filter.mp hp
              have hpr : p ∈ rest := (List.take_subset _ rest) hp2.1
              refine List.mem_cons_of_mem _ ?_
              exact List.mem_map.mpr ⟨p, List.mem_filter.mpr ⟨hpr, hp2.2⟩, by rw [hpe]⟩
          · have hk := ih (markWindow c rest) (by rw [markWindow_length]; exact hlen2)
              cl h m hm
            have hk2 := unassignedKeys_markWindow_subset c rest _ hk
            exact List.mem_cons_of_mem _
              (unassignedKeys_drop_subset _ rest _ hk2)

theorem unassignedKeys_subset_keysOf (l : List (Candidate × Bool)) :
    ∀ x ∈ unassignedKeys l, x ∈ keysOf l := by
  intro x hx
  obtain ⟨p, hp, hpe⟩ := List.mem_map.mp hx
  exact List.mem_map.mpr ⟨p, (List.mem_filter.mp hp).1, hpe⟩

theorem keysOf_take_subset (k : Nat) (rest : List (Candidate × Bool)) :
    ∀ x ∈ keysOf (rest.take k), x ∈ keysOf rest := by
  intro x hx
  obtain ⟨p, hp, hpe⟩ := List.mem_map.mp hx
  exact List.mem_map.mpr ⟨p, List.take_subset _ rest hp, hpe⟩

theorem keysOf_drop_subset (k : Nat) (rest : List (Candidate × Bool)) :
    ∀ x ∈ keysOf (rest.drop k), x ∈ keysOf rest := by
  intro x hx
  obtain ⟨p, hp, hpe⟩ := List.mem_map.mp hx
  exact List.mem_map.mpr ⟨p, List.drop_subset _ rest hp, hpe⟩

theorem keysOf_split (k : Nat) (rest : List (Candidate × Bool)) :
    keysOf rest = keysOf (rest.take k) ++ keysOf (rest.drop k) := by
  unfold keysOf
  rw [← List.map_append, List.take_append_drop]

theorem mkCluster_member_keys (c : Candidate) (rest : List (Candidate × Bool)) :
    ∀ m ∈ (mkCluster c rest).members,
      evKey m = evKey c ∨ evKey m ∈ keysOf (rest.take (windowLen c rest)) := by
  intro m hm
  rcases List.mem_cons.mp hm with h | h
  · exact Or.inl (by rw [h])
  · obtain ⟨p, hp, hpe⟩ := List.mem_map.mp h
    exact Or.inr (List.mem_map.mpr ⟨p, (List.mem_filter.mp hp).1, by rw [hpe]⟩)

theorem mkCluster_members_nodup (c : Candidate) (rest : List (Candidate × Bool))
    (hkeys : (keysOf ((c, false) :: rest)).Nodup) :
    ((mkCluster c rest).members.map evKey).Nodup := by
  have hcons : keysOf ((c, false) :: rest) = evKey c :: keysOf rest := rfl
  rw [hcons, List.nodup_cons] at hkeys
  obtain ⟨hcnot, hrestnd⟩ := hkeys
  have hmembers : (mkCluster c rest).members.map evKey =
      evKey c :: (((rest.take (windowLen c rest)).filter
        (fun p => !p.2)).map (fun p => p.1)).map evKey := rfl
  rw [hmembers, List.nodup_cons]
  constructor
  · intro hmem
    obtain ⟨m, hm, hme⟩ := List.mem_map.mp hmem
    obtain ⟨p, hp, hpe⟩ := List.mem_map.mp hm
    have : evKey c ∈ keysOf rest := by
      refine keysOf_take_subset (windowLen c rest) rest _ ?_
      exact List.mem_map.mpr ⟨p, (List.mem_filter.mp hp).1, by rw [hpe, hme]⟩
    exact hcnot this
  · have hsub : List.Sublist ((((rest.take (windowLen c rest)).filter
        (fun p => !p.2)).map (fun p => p.1)).map evKey)
        (keysOf (rest.take (windowLen c rest))) := by
      unfold keysOf
      rw [List.map_map]
      exact List.Sublist.map _ (List.filter_sublist _)
    have hsub2 : List.Sublist (keysOf (rest.take (windowLen c rest)))
        (keysOf rest) := by
      unfold keysOf
      exact List.Sublist.map _ (List.take_sublist _ _)
    exact ((hsub.trans hsub2).nodup hrestnd)

theorem sweep_disjoint : ∀ (n : Nat) (l : List (Candidate × Bool)),
    l.length ≤ n → (keysOf l).Nodup →
    ((sweep l).Pairwise (fun c1 c2 => ∀ m1 ∈ c1.members, ∀ m2 ∈ c2.members,
        evKey m1 ≠ evKey m2) ∧
     ∀ cl ∈ sweep l, (cl.members.map evKey).Nodup) := by
  intro n
  induction n with
  | zero =>
    intro l hlen _
    have hnil : l = [] := List.eq_nil_of_length_eq_zero (Nat.le_zero.mp hlen)
    subst hnil
    constructor
    · simp only [sweep]
      exact List.Pairwise.nil
    · intro cl hcl
      simp only [sweep] at hcl
      simp at hcl
  | succ n ih =>
    intro l hlen hkeys
    cases l with
    | nil =>
      constructor
      · simp only [sweep]
        exact List.Pairwise.nil
      · intro cl hcl
        simp only [sweep] at hcl
        simp at hcl
    | cons hd rest =>
      obtain ⟨c, a⟩ := hd
      have hlen2 : rest.length ≤ n := by
        simp only [List.length_cons] at hlen
        omega
      have hcons : keysOf ((c, a) :: rest) = evKey c :: keysOf rest := rfl
      rw [hcons, List.nodup_cons] at hkeys
      obtain ⟨hcnot, hrestnd⟩ := hkeys
      by_cases ha : a = true
      · subst ha
        rw [show sweep ((c, true) :: rest) = sweep rest from by simp [sweep]]
        exact ih rest hlen2 hrestnd
      · have ha' : a = false := by simpa using ha
        subst ha'
        by_cases hsmall : (distinctKeys ((windowMembers c rest).map
            (fun m => m.accession_number))).length < 2
        · rw [show sweep ((c, false) :: rest) = sweep rest from by
            simp [sweep, hsmall]]
          exact ih rest hlen2 hrestnd
        · rw [show sweep ((c, false) :: rest) =
              mkCluster c rest :: sweep (markWindow c rest) from by
            simp [sweep, hsmall]]
          have hkmark : (keysOf (markWindow c rest)).Nodup := by
            rw [keysOf_markWindow]
            exact hrestnd
          have hmlen : (markWindow c rest).length ≤ n := by
            rw [markWindow_length]
            exact hlen2
          obtain ⟨ihp, ihn⟩ := ih (markWindow c rest) hmlen hkmark
          have hsplit := keysOf_split (windowLen c rest) rest
          have hnd2 : (keysOf (rest.take (windowLen c rest)) ++
              keysOf (rest.drop (windowLen c rest))).Nodup := by
            rw [← hsplit]
            exact hrestnd
          have hdisj := (List.nodup_append.mp hnd2).2.2
          constructor
          · rw [List.pairwise_cons]
            refine ⟨?_, ihp⟩
            intro cl2 hcl2 m1 hm1 m2 hm2
            have hk2 : evKey m2 ∈ keysOf (rest.drop (windowLen c rest)) := by
              have h1 := sweep_member_keys (markWindow c rest).length
                (markWindow c rest) (le_refl _) cl2 hcl2 m2 hm2
              have h2 := unassignedKeys_markWindow_subset c rest _ h1
              exact unassignedKeys_subset_keysOf _ _ h2
            rcases mkCluster_member_keys c rest m1 hm1 with h | h
            · rw [h]
              intro hEq
              apply hcnot
              rw [hEq]
              exact keysOf_drop_subset _ rest _ hk2
            · intro hEq
              exact hdisj h (hEq ▸ hk2)
          · intro cl hcl
            rcases List.mem_cons.mp hcl with h | h
            · rw [h]
              exact mkCluster_members_nodup c rest
                (by rw [hcons]; exact List.nodup_cons.mpr ⟨hcnot, hrestnd⟩)
            · exact ihn cl h

/-- C6: over candidates with pairwise-distinct event identities and
nonnegative dollars, every cluster built for a (ticker, side) satisfies: all
member trade dates lie in `[window_start, window_end]` with a span of at
most 14 days; the members span at least 2 distinct accessions and
`unique_insiders` is exactly the count of distinct member accessions;
`total_dollars` is the sum over distinct accessions of the maximum member
dollars per accession; and no event belongs to two clusters of the side
(nor twice to one cluster). -/
theorem cluster_invariants (cands : List Candidate)
    (hkeys : (cands.map evKey).Nodup)
    (hnn : ∀ c ∈ cands, 0 ≤ c.dollars) :
    (∀ cl ∈ computeSideClusters cands, ClusterProps cl) ∧
    (computeSideClusters cands).Pairwise (fun c1 c2 => ∀ m1 ∈ c1.members,
      ∀ m2 ∈ c2.members, evKey m1 ≠ evKey m2) ∧
    (∀ cl ∈ computeSideClusters cands, (cl.members.map evKey).Nodup) := by
  unfold computeSideClusters
  by_cases hlt : cands.length < 2
  · rw [if_pos hlt]
    exact ⟨fun cl hcl => absurd hcl (List.not_mem_nil cl), List.Pairwise.nil,
      fun cl hcl => absurd hcl (List.not_mem_nil cl)⟩
  · rw [if_neg hlt]
    have hperm := List.perm_insertionSort
      (fun a b : Candidate => a.trade_date ≤ b.trade_date) cands
    haveI hTot : IsTotal Candidate (fun a b => a.trade_date ≤ b.trade_date) :=
      ⟨fun a b => le_total _ _⟩
    haveI hTrans : IsTrans Candidate (fun a b => a.trade_date ≤ b.trade_date) :=
      ⟨fun a b c hab hbc => le_trans hab hbc⟩
    have hsorted := List.sorted_insertionSort
      (fun a b : Candidate => a.trade_date ≤ b.trade_date) cands
    have hsort0 : ((List.insertionSort (fun a b : Candidate =>
        a.trade_date ≤ b.trade_date) cands).map (fun c => (c, false))).Pairwise
        (fun p q : Candidate × Bool => p.1.trade_date ≤ q.1.trade_date) :=
      (List.pairwise_map).mpr hsorted
    have hkeyseq : keysOf ((List.insertionSort (fun a b : Candidate =>
        a.trade_date ≤ b.trade_date) cands).map (fun c => (c, false))) =
        (List.insertionSort (fun a b : Candidate =>
          a.trade_date ≤ b.trade_date) cands).map evKey := by
      unfold keysOf
      rw [List.map_map]
      rfl
    have hkeys0 : (keysOf ((List.insertionSort (fun a b : Candidate =>
        a.trade_date ≤ b.trade_date) cands).map (fun c => (c, false)))).Nodup := by
      rw [hkeyseq]
      exact ((hperm.map evKey).nodup_iff).mpr hkeys
    have hnn0 : ∀ p ∈ (List.insertionSort (fun a b : Candidate =>
        a.trade_date ≤ b.trade_date) cands).map (fun c => (c, false)),
        0 ≤ p.1.dollars := by
      intro p hp
      obtain ⟨c, hc, hce⟩ := List.mem_map.mp hp
      rw [← hce]
      exact hnn c (hperm.mem_iff.mp hc)
    exact ⟨fun cl hcl => sweep_props _ _ (le_refl _) hsort0 hnn0 cl hcl,
      (sweep_disjoint _ _ (le_refl _) hkeys0).1,
      fun cl hcl => (sweep_disjoint _ _ (le_refl _) hkeys0).2 cl hcl⟩

/-- Two candidates from different filings three days apart. -/
def c6cands : List Candidate :=
  [⟨"1", "o1", "acc1", 0, 10, true, some 5⟩,
   ⟨"1", "o2", "acc2", 3, 20, false, none⟩]

theorem c6cands_one_cluster : (computeSideClusters c6cands).length = 1 := by
  rw [computeSideClusters, if_neg (by decide)]
  have h1 : List.insertionSort (fun a b : Candidate => a.trade_date ≤ b.trade_date)
      c6cands = c6cands := by
    simp [c6cands, List.insertionSort, List.orderedInsert]
  rw [h1]
  have h2 : sweep (c6cands.map (fun c => (c, false))) =
      mkCluster ⟨"1", "o1", "acc1", 0, 10, true, some 5⟩
        [(⟨"1", "o2", "acc2", 3, 20, false, none⟩, false)] ::
      sweep (markWindow ⟨"1", "o1", "acc1", 0, 10, true, some 5⟩
        [(⟨"1", "o2", "acc2", 3, 20, false, none⟩, false)]) := by
    show sweep ((⟨"1", "o1", "acc1", 0, 10, true, some 5⟩, false) ::
      [(⟨"1", "o2", "acc2", 3, 20, false, none⟩, false)]) = _
    rw [show (sweep ((⟨"1", "o1", "acc1", 0, 10, true, some 5⟩, false) ::
      [(⟨"1", "o2", "acc2", 3, 20, false, none⟩, false)]) : List Cluster) =
      if (distinctKeys ((windowMembers ⟨"1", "o1", "acc1", 0, 10, true, some 5⟩
          [(⟨"1", "o2", "acc2", 3, 20, false, none⟩, false)]).map
          (fun m => m.accession_number))).length < 2 then
        sweep [(⟨"1", "o2", "acc2", 3, 20, false, none⟩, false)]
      else mkCluster ⟨"1", "o1", "acc1", 0, 10, true, some 5⟩
          [(⟨"1", "o2", "acc2", 3, 20, false, none⟩, false)] ::
        sweep (markWindow ⟨"1", "o1", "acc1", 0, 10, true, some 5⟩
          [(⟨"1", "o2", "acc2", 3, 20, false, none⟩, false)]) from by
      simp [sweep]]
    rw [if_neg (by decide)]
  rw [h2]
  have h3 : markWindow ⟨"1", "o1", "acc1", 0, 10, true, some 5⟩
      [(⟨"1", "o2", "acc2", 3, 20, false, none⟩, false)] =
      [(⟨"1", "o2", "acc2", 3, 20, false, none⟩, true)] := by
    simp [markWindow, windowLen]
  rw [h3]
  rw [show (sweep [(⟨"1", "o2", "acc2", 3, 20, false, none⟩, true)] : List Cluster) =
    sweep [] from by simp [sweep]]
  rw [show (sweep [] : List Cluster) = [] from by simp [sweep]]
  rfl

/-- Witness for C6 at two candidates three days apart; exactly one cluster
forms, and the invariants hold of it. -/
theorem cluster_invariants_witness :
    (∀ cl ∈ computeSideClusters c6cands, ClusterProps cl) ∧
    (computeSideClusters c6cands).Pairwise (fun c1 c2 => ∀ m1 ∈ c1.members,
      ∀ m2 ∈ c2.members, evKey m1 ≠ evKey m2) ∧
    (∀ cl ∈ computeSideClusters c6cands, (cl.members.map evKey).Nodup) ∧
    (computeSideClusters c6cands).length = 1 :=
  have h := cluster_invariants c6cands (by decide) (by decide)
  ⟨h.1, h.2.1, h.2.2, c6cands_one_cluster⟩
